import Mathlib

/-!
Verification development for the thekogans crypto key-management library.

The C++ sources are shallowly embedded:

* `std::map` instances (category maps of a `KeyRing`, derived-object
  caches) are embedded as key-sorted association lists; `mfind`,
  `minsert` and `merase` mirror `std::map::find`, `std::map::insert`
  (which reports whether the insertion took place) and
  `std::map::erase` of a found iterator.
* Exceptions (`THEKOGANS_UTIL_THROW_...`) are embedded as `Except Unit`
  (`Except.error ()` = the call throws, state unchanged at the throw
  site exactly when the C++ code has not mutated anything before the
  throw) or as `Option` where the C++ value is nullable.
* Unbounded recursion over sub-rings is embedded with an explicit fuel
  argument; a fuel larger than the nesting depth makes the embedding
  agree with the C++ recursion (which always terminates on finite
  acyclic ring trees).
* `util::Serializer` writes are embedded at the granularity of single
  serializer operations: each `<<` of an integer / bool / string and
  each `Write` of a byte run is one `Tok`.  `(util::ui32)` casts of
  sizes are embedded as `% 2^32`.
-/

namespace ThekogansCrypto

/-! ## Generic ordered-map operations over association lists -/

/-- `std::map::find`: the mapped value whose key equals `k`, if any. -/
def mfind {κ α : Type} [DecidableEq κ] (key : α → κ) (k : κ) : List α → Option α
  | [] => none
  | v :: t => if key v = k then some v else mfind key k t

/-- `std::map::insert`: insert `v` keeping the list sorted by `kLt` on
keys; the `Bool` is `result.second` of the C++ insert (`false` and an
unchanged map when the key is already present). -/
def minsert {κ α : Type} [DecidableEq κ] (key : α → κ) (kLt : κ → κ → Bool)
    (v : α) : List α → List α × Bool
  | [] => ([v], true)
  | a :: t =>
    if kLt (key v) (key a) then (v :: a :: t, true)
    else if key v = key a then (a :: t, false)
    else
      let r := minsert key kLt v t
      (a :: r.1, r.2)

/-- `std::map::erase` of the iterator returned by a successful `find`:
remove the entry whose key is `k` (no change when absent). -/
def merase {κ α : Type} [DecidableEq κ] (key : α → κ) (k : κ) : List α → List α
  | [] => []
  | a :: t => if key a = k then t else a :: merase key k t

/-- Strict ascending order of the keys of an association list: the
representation invariant every `std::map` maintains. -/
def sortedKeysB {κ α : Type} (key : α → κ) (kLt : κ → κ → Bool) : List α → Bool
  | [] => true
  | [_] => true
  | a :: b :: t => kLt (key a) (key b) && sortedKeysB key kLt (b :: t)

/-- Comparison used by `std::map<ID, ...>` (IDs compare
lexicographically, embedded as naturals). -/
def natLt (a b : Nat) : Bool := decide (a < b)

/-! ## Value objects stored in a key ring -/

/-- `SymmetricKey`: a `Serializable` identity plus the secret bytes
(the logical `length` cursor of the fixed buffer equals
`data.length`). -/
structure SKeyV where
  id : Nat
  name : String
  description : String
  data : List Nat
deriving DecidableEq

/-- `AsymmetricKey` (`AsymmetricKey.cpp`): a `Serializable` identity, a
private/public flag, the `EVP_PKEY` algorithm type tag, and the key
material (embedded by its PEM byte image, which is what
`AsymmetricKey::Write` emits and `AsymmetricKey::Read` parses). -/
structure AKeyV where
  id : Nat
  name : String
  description : String
  isPrivate : Bool
  ktype : Int
  pem : List Nat
deriving DecidableEq

/-- Modelled from the spec: `Params` (no `Params.cpp` is in the
sources) is a `Serializable` identity plus an opaque, length-prefixed
binary payload of algorithm parameters. -/
structure ParamsV where
  id : Nat
  name : String
  description : String
  payload : List Nat
deriving DecidableEq

/-- Authenticator operation (`Authenticator::Op`): `Sign` or
`Verify`, with `Sign` ordered first as in the C++ enum. -/
inductive AuthOp where
  | sign
  | verify
deriving DecidableEq

/-- Key of the authenticator cache: `AuthenticatorMapKey (op, keyId)`. -/
abbrev AuthMapKey := AuthOp × Nat

/-- Ordering of `std::pair<Authenticator::Op, ID>`. -/
def authKeyLt (a b : AuthMapKey) : Bool :=
  match a, b with
  | (AuthOp.sign, _), (AuthOp.verify, _) => true
  | (AuthOp.verify, _), (AuthOp.sign, _) => false
  | (_, i), (_, j) => natLt i j

/-- Modelled from the spec: a derived `Cipher` (`CipherSuite::GetCipher`
is not in the sources); it is determined by the symmetric key it wraps,
the suite being fixed per ring. -/
structure CipherV where
  key : SKeyV
deriving DecidableEq

/-- Modelled from the spec: a derived `Authenticator`, determined by the
operation and the asymmetric key it wraps. -/
structure AuthV where
  op : AuthOp
  key : AKeyV
deriving DecidableEq

/-- Modelled from the spec: a derived `MAC`, determined by the key it
wraps. -/
structure MACV where
  key : AKeyV
deriving DecidableEq

/-- Modelled from the spec: a derived `KeyExchange`, determined by the
key it wraps. -/
structure KeyExchangeV where
  key : AKeyV
deriving DecidableEq

/-- Modelled from the spec: the `CipherSuite::Verify*` predicates (the
suite implementation is not in the sources); `KeyRing` only ever calls
them as opaque boolean tests of a key or params object. -/
structure SuiteOps where
  verifyKeyExchangeParams : ParamsV → Bool
  verifyKeyExchangeKey : AKeyV → Bool
  verifyAuthenticatorParams : ParamsV → Bool
  verifyAuthenticatorKey : AKeyV → Bool
  verifyCipherKey : SKeyV → Bool
  verifyMACKey : AKeyV → Bool

/-! ## The key ring -/

/-- The non-recursive fields of a `KeyRing`: identity, cipher suite
(textual form), the categorized key maps, and the derived-object
caches. -/
structure RingData where
  id : Nat
  name : String
  description : String
  cipherSuite : String
  keyExchangeParamsMap : List ParamsV
  keyExchangeKeyMap : List AKeyV
  authenticatorParamsMap : List ParamsV
  authenticatorKeyMap : List AKeyV
  masterCipherKey : SKeyV
  activeCipherKeyMap : List SKeyV
  retiredCipherKeyMap : List SKeyV
  macKeyMap : List AKeyV
  cipherMap : List (Nat × CipherV)
  authenticatorMap : List (AuthMapKey × AuthV)
  macMap : List (Nat × MACV)
  keyExchangeMap : List (Nat × KeyExchangeV)
deriving DecidableEq

/-- A `KeyRing`: its data plus the sub-ring map (sorted by ring id,
values only: the `std::map` key of every entry is the entry's own id,
which is how every insertion site keys it). -/
inductive KeyRing : Type where
  | mk (data : RingData) (subringsMap : List KeyRing) : KeyRing

def KeyRing.data : KeyRing → RingData
  | .mk d _ => d

def KeyRing.subrings : KeyRing → List KeyRing
  | .mk _ s => s

def KeyRing.ringId (r : KeyRing) : Nat := r.data.id

def KeyRing.withData (r : KeyRing) (d : RingData) : KeyRing :=
  .mk d r.subrings

def KeyRing.withSubrings (r : KeyRing) (s : List KeyRing) : KeyRing :=
  .mk r.data s

/-! ## KeyRing operations (transcribed from `KeyRing.cpp`)

Every operation that may descend into sub-rings takes a fuel argument;
fuel is consumed only when descending, so with `recursive = false` (or
on a local hit) the fuel value is irrelevant. -/

/-- Case analysis on an `Option` (the C++ `if (x.Get () != 0)` tests),
kept as a named combinator so that the recursive ring operations
produce usable unfolding equations. -/
def elimO {b g : Type} : Option b → (b → g) → (Unit → g) → g
  | some v, f, _ => f v
  | none, _, h => h ()

/-- Case analysis on an `Except` result (exception propagation). -/
def elimE {b g : Type} : Except Unit b → (b → g) → (Unit → g) → g
  | .ok v, f, _ => f v
  | .error e, _, h => h e

/-- The sub-ring walk shared by the mutating boolean operations
(`RetireActiveCipherKey`, `Drop*`): try each sub-ring in map order,
stop at the first that reports success, propagate exceptions. -/
def walkFirst (step : KeyRing → Except Unit (Bool × KeyRing)) :
    List KeyRing → Except Unit (Bool × List KeyRing)
  | [] => .ok (false, [])
  | s :: t =>
    match step s with
    | .error e => .error e
    | .ok (true, s1) => .ok (true, s1 :: t)
    | .ok (false, s1) =>
      match walkFirst step t with
      | .error e => .error e
      | .ok (b, t1) => .ok (b, s1 :: t1)

/-- The sub-ring walk shared by the mutating lookup operations
(`GetCipher`, `GetMAC`, `GetAuthenticator`): try each sub-ring in map
order, stop at the first non-null result, propagate exceptions. -/
def findWalk {β : Type} (step : KeyRing → Except Unit (Option β × KeyRing)) :
    List KeyRing → Except Unit (Option β × List KeyRing)
  | [] => .ok (none, [])
  | s :: t =>
    match step s with
    | .error e => .error e
    | .ok (some v, s1) => .ok (some v, s1 :: t)
    | .ok (none, s1) =>
      match findWalk step t with
      | .error e => .error e
      | .ok (res, t1) => .ok (res, s1 :: t1)

/-- `KeyRing::GetCipherKey (const ID &, bool)`: master first, then the
active map, then the retired map, then (if `recursive`) the sub-rings
in map order. -/
def getCipherKey (fuel : Nat) (r : KeyRing) (keyId : Nat) (recursive : Bool) :
    Option SKeyV :=
    if r.data.masterCipherKey.id = keyId then some r.data.masterCipherKey
    else
      elimO (mfind SKeyV.id keyId r.data.activeCipherKeyMap) some fun _ =>
        elimO (mfind SKeyV.id keyId r.data.retiredCipherKeyMap) some fun _ =>
          if recursive then
            match fuel with
            | 0 => none
            | f + 1 => r.subrings.findSome? fun s => getCipherKey f s keyId recursive
          else none

/-- `KeyRing::GetMACKey (const ID &, bool)`. -/
def getMACKey (fuel : Nat) (r : KeyRing) (keyId : Nat) (recursive : Bool) :
    Option AKeyV :=
    elimO (mfind AKeyV.id keyId r.data.macKeyMap) some fun _ =>
      if recursive then
        match fuel with
        | 0 => none
        | f + 1 => r.subrings.findSome? fun s => getMACKey f s keyId recursive
      else none

/-- `KeyRing::GetAuthenticatorKey (const ID &, bool)`. -/
def getAuthenticatorKey (fuel : Nat) (r : KeyRing) (keyId : Nat) (recursive : Bool) :
    Option AKeyV :=
    elimO (mfind AKeyV.id keyId r.data.authenticatorKeyMap) some fun _ =>
      if recursive then
        match fuel with
        | 0 => none
        | f + 1 => r.subrings.findSome? fun s => getAuthenticatorKey f s keyId recursive
      else none

/-- `KeyRing::GetSubring (const ID &, bool)`: the local sub-ring map
first, then (if `recursive`) each sub-ring in map order. -/
def getSubring (fuel : Nat) (r : KeyRing) (subringId : Nat) (recursive : Bool) :
    Option KeyRing :=
    elimO (mfind KeyRing.ringId subringId r.subrings) some fun _ =>
      if recursive then
        match fuel with
        | 0 => none
        | f + 1 => r.subrings.findSome? fun s => getSubring f s subringId recursive
      else none

/-- `KeyRing::GetCipher (const ID &, bool)`: cache hit, else local key
lookup (master / active / retired, never recursive) followed by
construction and caching of the derived cipher, else (if `recursive`)
descent into sub-rings.  The C++ throw on a failed cache insert is the
`Except.error` branch. -/
def getCipher (fuel : Nat) (r : KeyRing) (keyId : Nat) (recursive : Bool) :
    Except Unit (Option CipherV × KeyRing) :=
    elimO (mfind Prod.fst keyId r.data.cipherMap) (fun e => .ok (some e.2, r)) fun _ =>
      elimO (getCipherKey 0 r keyId false)
        (fun k =>
          if (minsert Prod.fst natLt (keyId, CipherV.mk k) r.data.cipherMap).2 then
            .ok (some (CipherV.mk k), r.withData { r.data with
              cipherMap := (minsert Prod.fst natLt (keyId, CipherV.mk k) r.data.cipherMap).1 })
          else .error ())
        fun _ =>
          if recursive then
            match fuel with
            | 0 => .ok (none, r)
            | f + 1 =>
              elimE (findWalk (fun s => getCipher f s keyId recursive) r.subrings)
                (fun p => .ok (p.1, r.withSubrings p.2))
                (fun _ => .error ())
          else .ok (none, r)

/-- `KeyRing::GetMAC (const ID &, bool)`. -/
def getMAC (fuel : Nat) (r : KeyRing) (keyId : Nat) (recursive : Bool) :
    Except Unit (Option MACV × KeyRing) :=
    elimO (mfind Prod.fst keyId r.data.macMap) (fun e => .ok (some e.2, r)) fun _ =>
      elimO (getMACKey 0 r keyId false)
        (fun k =>
          if (minsert Prod.fst natLt (keyId, MACV.mk k) r.data.macMap).2 then
            .ok (some (MACV.mk k), r.withData { r.data with
              macMap := (minsert Prod.fst natLt (keyId, MACV.mk k) r.data.macMap).1 })
          else .error ())
        fun _ =>
          if recursive then
            match fuel with
            | 0 => .ok (none, r)
            | f + 1 =>
              elimE (findWalk (fun s => getMAC f s keyId recursive) r.subrings)
                (fun p => .ok (p.1, r.withSubrings p.2))
                (fun _ => .error ())
          else .ok (none, r)

/-- `KeyRing::GetAuthenticator (Op, const ID &, bool)`. -/
def getAuthenticator (fuel : Nat) (r : KeyRing) (op : AuthOp) (keyId : Nat)
    (recursive : Bool) : Except Unit (Option AuthV × KeyRing) :=
    elimO (mfind Prod.fst (op, keyId) r.data.authenticatorMap)
      (fun e => .ok (some e.2, r)) fun _ =>
      elimO (getAuthenticatorKey 0 r keyId false)
        (fun k =>
          if (minsert Prod.fst authKeyLt ((op, keyId), AuthV.mk op k)
              r.data.authenticatorMap).2 then
            .ok (some (AuthV.mk op k), r.withData { r.data with
              authenticatorMap := (minsert Prod.fst authKeyLt ((op, keyId), AuthV.mk op k)
                r.data.authenticatorMap).1 })
          else .error ())
        fun _ =>
          if recursive then
            match fuel with
            | 0 => .ok (none, r)
            | f + 1 =>
              elimE (findWalk (fun s => getAuthenticator f s op keyId recursive) r.subrings)
                (fun p => .ok (p.1, r.withSubrings p.2))
                (fun _ => .error ())
          else .ok (none, r)

/-- `KeyRing::AddKeyExchangeParams`: null or failed validation throws
`EINVAL`; otherwise the map insert's `result.second` is returned. -/
def addKeyExchangeParams (ops : SuiteOps) (r : KeyRing) (params : Option ParamsV) :
    Except Unit (Bool × KeyRing) :=
  match params with
  | some p =>
    if ops.verifyKeyExchangeParams p then
      let ins := minsert ParamsV.id natLt p r.data.keyExchangeParamsMap
      .ok (ins.2, r.withData { r.data with keyExchangeParamsMap := ins.1 })
    else .error ()
  | none => .error ()

/-- `KeyRing::AddKeyExchangeKey`. -/
def addKeyExchangeKey (ops : SuiteOps) (r : KeyRing) (key : Option AKeyV) :
    Except Unit (Bool × KeyRing) :=
  match key with
  | some k =>
    if ops.verifyKeyExchangeKey k then
      let ins := minsert AKeyV.id natLt k r.data.keyExchangeKeyMap
      .ok (ins.2, r.withData { r.data with keyExchangeKeyMap := ins.1 })
    else .error ()
  | none => .error ()

/-- `KeyRing::AddAuthenticatorParams`. -/
def addAuthenticatorParams (ops : SuiteOps) (r : KeyRing) (params : Option ParamsV) :
    Except Unit (Bool × KeyRing) :=
  match params with
  | some p =>
    if ops.verifyAuthenticatorParams p then
      let ins := minsert ParamsV.id natLt p r.data.authenticatorParamsMap
      .ok (ins.2, r.withData { r.data with authenticatorParamsMap := ins.1 })
    else .error ()
  | none => .error ()

/-- `KeyRing::AddAuthenticatorKey`. -/
def addAuthenticatorKey (ops : SuiteOps) (r : KeyRing) (key : Option AKeyV) :
    Except Unit (Bool × KeyRing) :=
  match key with
  | some k =>
    if ops.verifyAuthenticatorKey k then
      let ins := minsert AKeyV.id natLt k r.data.authenticatorKeyMap
      .ok (ins.2, r.withData { r.data with authenticatorKeyMap := ins.1 })
    else .error ()
  | none => .error ()

/-- `KeyRing::AddCipherActiveKey`: only the active map is consulted for
the duplicate check. -/
def addCipherActiveKey (ops : SuiteOps) (r : KeyRing) (key : Option SKeyV) :
    Except Unit (Bool × KeyRing) :=
  match key with
  | some k =>
    if ops.verifyCipherKey k then
      let ins := minsert SKeyV.id natLt k r.data.activeCipherKeyMap
      .ok (ins.2, r.withData { r.data with activeCipherKeyMap := ins.1 })
    else .error ()
  | none => .error ()

/-- `KeyRing::AddMACKey`. -/
def addMACKey (ops : SuiteOps) (r : KeyRing) (key : Option AKeyV) :
    Except Unit (Bool × KeyRing) :=
  match key with
  | some k =>
    if ops.verifyMACKey k then
      let ins := minsert AKeyV.id natLt k r.data.macKeyMap
      .ok (ins.2, r.withData { r.data with macKeyMap := ins.1 })
    else .error ()
  | none => .error ()

/-- `KeyRing::AddSubring`: null throws `EINVAL`; no other check is
performed before the map insert. -/
def addSubring (r : KeyRing) (subring : Option KeyRing) :
    Except Unit (Bool × KeyRing) :=
  match subring with
  | some s =>
    let ins := minsert KeyRing.ringId natLt s r.subrings
    .ok (ins.2, r.withSubrings ins.1)
  | none => .error ()

/-- `KeyRing::SetMasterCipherKey`: validate, purge the derived-cipher
cache entry keyed by the old master's id (if cached), swap the key. -/
def setMasterCipherKey (ops : SuiteOps) (r : KeyRing) (key : Option SKeyV) :
    Except Unit KeyRing :=
  match key with
  | some k =>
    if ops.verifyCipherKey k then
      .ok (r.withData { r.data with
        masterCipherKey := k
        cipherMap := merase Prod.fst r.data.masterCipherKey.id r.data.cipherMap })
    else .error ()
  | none => .error ()

/-- `KeyRing::RetireActiveCipherKey`: on a local active hit, insert into
the retired map (a failed insert throws before anything is mutated),
then erase from the active map; on a local miss with `recursive`,
descend in map order. -/
def retireActiveCipherKey (fuel : Nat) (r : KeyRing) (keyId : Nat) (recursive : Bool) :
    Except Unit (Bool × KeyRing) :=
    elimO (mfind SKeyV.id keyId r.data.activeCipherKeyMap)
      (fun k =>
        if (minsert SKeyV.id natLt k r.data.retiredCipherKeyMap).2 then
          .ok (true, r.withData { r.data with
            activeCipherKeyMap := merase SKeyV.id keyId r.data.activeCipherKeyMap
            retiredCipherKeyMap := (minsert SKeyV.id natLt k r.data.retiredCipherKeyMap).1 })
        else .error ())
      fun _ =>
        if recursive then
          match fuel with
          | 0 => .ok (false, r)
          | f + 1 =>
            elimE (walkFirst (fun s => retireActiveCipherKey f s keyId recursive) r.subrings)
              (fun p => .ok (p.1, r.withSubrings p.2))
              (fun _ => .error ())
        else .ok (false, r)

/-- `KeyRing::DropActiveCipherKey`: erase from the active map and purge
the derived-cipher cache entry for the id; on a local miss with
`recursive`, descend in map order.  (The C++ function cannot throw; the
`Except` wrapper only matches the shared walker.) -/
def dropActiveCipherKey (fuel : Nat) (r : KeyRing) (keyId : Nat) (recursive : Bool) :
    Except Unit (Bool × KeyRing) :=
    elimO (mfind SKeyV.id keyId r.data.activeCipherKeyMap)
      (fun _ =>
        .ok (true, r.withData { r.data with
          activeCipherKeyMap := merase SKeyV.id keyId r.data.activeCipherKeyMap
          cipherMap := merase Prod.fst keyId r.data.cipherMap }))
      fun _ =>
        if recursive then
          match fuel with
          | 0 => .ok (false, r)
          | f + 1 =>
            elimE (walkFirst (fun s => dropActiveCipherKey f s keyId recursive) r.subrings)
              (fun p => .ok (p.1, r.withSubrings p.2))
              (fun _ => .error ())
        else .ok (false, r)

/-- `KeyRing::DropMACKey`: erase from the MAC key map and purge the MAC
cache entry for the id. -/
def dropMACKey (fuel : Nat) (r : KeyRing) (keyId : Nat) (recursive : Bool) :
    Except Unit (Bool × KeyRing) :=
    elimO (mfind AKeyV.id keyId r.data.macKeyMap)
      (fun _ =>
        .ok (true, r.withData { r.data with
          macKeyMap := merase AKeyV.id keyId r.data.macKeyMap
          macMap := merase Prod.fst keyId r.data.macMap }))
      fun _ =>
        if recursive then
          match fuel with
          | 0 => .ok (false, r)
          | f + 1 =>
            elimE (walkFirst (fun s => dropMACKey f s keyId recursive) r.subrings)
              (fun p => .ok (p.1, r.withSubrings p.2))
              (fun _ => .error ())
        else .ok (false, r)

/-- `KeyRing::DropAuthenticatorKey`: erase from the authenticator key
map and purge both the `Sign` and the `Verify` cache entries for the
id. -/
def dropAuthenticatorKey (fuel : Nat) (r : KeyRing) (keyId : Nat) (recursive : Bool) :
    Except Unit (Bool × KeyRing) :=
    elimO (mfind AKeyV.id keyId r.data.authenticatorKeyMap)
      (fun _ =>
        .ok (true, r.withData { r.data with
          authenticatorKeyMap := merase AKeyV.id keyId r.data.authenticatorKeyMap
          authenticatorMap :=
            merase Prod.fst (AuthOp.verify, keyId)
              (merase Prod.fst (AuthOp.sign, keyId) r.data.authenticatorMap) }))
      fun _ =>
        if recursive then
          match fuel with
          | 0 => .ok (false, r)
          | f + 1 =>
            elimE (walkFirst (fun s => dropAuthenticatorKey f s keyId recursive) r.subrings)
              (fun p => .ok (p.1, r.withSubrings p.2))
              (fun _ => .error ())
        else .ok (false, r)

/-! ## Binary serialization (`KeyRing::Serialize` and the deserializing
constructor `KeyRing::KeyRing (util::Serializer &)`)

The token stream records one `Tok` per primitive serializer operation.
The `Serializable` header and the `CipherSuite` text encoding are
modelled from the spec (their implementations are not in the sources):
the header carries the id, name and description (`includeType = false`
everywhere inside a ring, so no type tag is written), and the suite is
one length-prefixed string. -/

/-- One primitive `util::Serializer` operation. -/
inductive Tok where
  | u32 (n : Nat)
  | i32 (n : Int)
  | boolv (v : Bool)
  | str (s : String)
  | idv (n : Nat)
  | bytes (bs : List Nat)
deriving DecidableEq

/-- Modelled from the spec: the `Serializable` header written with
`includeType = false` — id, then name, then description. -/
def serializeHeader (id : Nat) (name description : String) : List Tok :=
  [Tok.idv id, Tok.str name, Tok.str description]

/-- `SymmetricKey::Serialize (serializer, false)`: header, byte count as
`ui32`, secret bytes. -/
def serializeSKey (k : SKeyV) : List Tok :=
  serializeHeader k.id k.name k.description ++
    [Tok.u32 (k.data.length % 4294967296), Tok.bytes k.data]

/-- `AsymmetricKey::Write`: header, `isPrivate`, `EVP_PKEY` type as
`i32`, PEM length as `i32`, PEM bytes. -/
def serializeAKey (k : AKeyV) : List Tok :=
  serializeHeader k.id k.name k.description ++
    [Tok.boolv k.isPrivate, Tok.i32 k.ktype,
     Tok.i32 (Int.ofNat k.pem.length), Tok.bytes k.pem]

/-- Modelled from the spec: `Params::Serialize` — header plus the
length-prefixed parameter payload. -/
def serializeParams (p : ParamsV) : List Tok :=
  serializeHeader p.id p.name p.description ++
    [Tok.u32 (p.payload.length % 4294967296), Tok.bytes p.payload]

/-- One serialized category: the `ui32` element count followed by each
element in map order, exactly as every `serializer << (util::ui32)
map.size ()` / iteration pair in `KeyRing::Serialize`. -/
def serializeCat {α : Type} (ser : α → List Tok) (l : List α) : List Tok :=
  Tok.u32 (l.length % 4294967296) :: (l.map ser).flatten

/-- `KeyRing::Serialize (serializer, false)`: header, suite, the four
asymmetric categories, the master key, the two symmetric categories,
the MAC keys, and the sub-rings, each category count-prefixed. -/
def serializeRing (fuel : Nat) (r : KeyRing) : List Tok :=
    serializeHeader r.data.id r.data.name r.data.description ++
    [Tok.str r.data.cipherSuite] ++
    serializeCat serializeParams r.data.keyExchangeParamsMap ++
    serializeCat serializeAKey r.data.keyExchangeKeyMap ++
    serializeCat serializeParams r.data.authenticatorParamsMap ++
    serializeCat serializeAKey r.data.authenticatorKeyMap ++
    serializeSKey r.data.masterCipherKey ++
    serializeCat serializeSKey r.data.activeCipherKeyMap ++
    serializeCat serializeSKey r.data.retiredCipherKeyMap ++
    serializeCat serializeAKey r.data.macKeyMap ++
    (Tok.u32 (r.subrings.length % 4294967296) ::
      (match fuel with
       | 0 => []
       | f + 1 => (r.subrings.map (serializeRing f)).flatten))

/-! ### Parsing (the deserializing constructors) -/

def readU32 : List Tok → Option (Nat × List Tok)
  | Tok.u32 n :: t => some (n, t)
  | _ => none

def readI32 : List Tok → Option (Int × List Tok)
  | Tok.i32 n :: t => some (n, t)
  | _ => none

def readBool : List Tok → Option (Bool × List Tok)
  | Tok.boolv v :: t => some (v, t)
  | _ => none

def readStr : List Tok → Option (String × List Tok)
  | Tok.str s :: t => some (s, t)
  | _ => none

def readId : List Tok → Option (Nat × List Tok)
  | Tok.idv n :: t => some (n, t)
  | _ => none

/-- `Serializer::Read` of exactly `n` bytes: consumes the byte run that
was written at this position provided its length agrees (a disagreement
means the byte-stream framing is off and parsing cannot proceed). -/
def readBytes (n : Nat) : List Tok → Option (List Nat × List Tok)
  | Tok.bytes bs :: t => if bs.length = n then some (bs, t) else none
  | _ => none

/-- Modelled from the spec: parse a `Serializable` header. -/
def parseHeader (toks : List Tok) : Option ((Nat × String × String) × List Tok) := do
  let (i, t1) ← readId toks
  let (nm, t2) ← readStr t1
  let (ds, t3) ← readStr t2
  some ((i, nm, ds), t3)

/-- `SymmetricKey::SymmetricKey (util::Serializer &)`. -/
def parseSKey (toks : List Tok) : Option (SKeyV × List Tok) := do
  let (h, t1) ← parseHeader toks
  let (n, t2) ← readU32 t1
  let (bs, t3) ← readBytes n t2
  some (⟨h.1, h.2.1, h.2.2, bs⟩, t3)

/-- `AsymmetricKey::Read`. -/
def parseAKey (toks : List Tok) : Option (AKeyV × List Tok) := do
  let (h, t1) ← parseHeader toks
  let (priv, t2) ← readBool t1
  let (ty, t3) ← readI32 t2
  let (len, t4) ← readI32 t3
  let (bs, t5) ← readBytes len.toNat t4
  some (⟨h.1, h.2.1, h.2.2, priv, ty, bs⟩, t5)

/-- Modelled from the spec: `Params::Params (util::Serializer &)`. -/
def parseParams (toks : List Tok) : Option (ParamsV × List Tok) := do
  let (h, t1) ← parseHeader toks
  let (n, t2) ← readU32 t1
  let (bs, t3) ← readBytes n t2
  some (⟨h.1, h.2.1, h.2.2, bs⟩, t3)

/-- Read `n` consecutive elements with the element parser `p`. -/
def readItems {α : Type} (p : List Tok → Option (α × List Tok)) :
    Nat → List Tok → Option (List α × List Tok)
  | 0, toks => some ([], toks)
  | n + 1, toks => do
    let (a, t1) ← p toks
    let (l, t2) ← readItems p n t1
    some (a :: l, t2)

/-- Re-insert deserialized elements one by one, keyed by their own id,
failing (the C++ constructor throws) when an insert reports a
duplicate. -/
def rebuildMap {α : Type} (key : α → Nat) (acc : List α) : List α → Option (List α)
  | [] => some acc
  | a :: t =>
    match minsert key natLt a acc with
    | (acc1, true) => rebuildMap key acc1 t
    | (_, false) => none

/-- Parse one count-prefixed category and rebuild its map. -/
def parseCat {α : Type} (p : List Tok → Option (α × List Tok)) (key : α → Nat)
    (toks : List Tok) : Option (List α × List Tok) := do
  let (n, t1) ← readU32 toks
  let (items, t2) ← readItems p n t1
  let m ← rebuildMap key [] items
  some (m, t2)

/-- The non-recursive prefix of the deserializing constructor
`KeyRing::KeyRing (util::Serializer &)`: everything up to and including
the sub-ring count, yielding the ring data (caches empty) and the
number of sub-rings still to read. -/
def parseRingPrefix (toks : List Tok) : Option (RingData × Nat × List Tok) := do
  let (h, t1) ← parseHeader toks
  let (suite, t2) ← readStr t1
  let (kxp, t3) ← parseCat parseParams ParamsV.id t2
  let (kxk, t4) ← parseCat parseAKey AKeyV.id t3
  let (aup, t5) ← parseCat parseParams ParamsV.id t4
  let (auk, t6) ← parseCat parseAKey AKeyV.id t5
  let (master, t7) ← parseSKey t6
  let (act, t8) ← parseCat parseSKey SKeyV.id t7
  let (ret, t9) ← parseCat parseSKey SKeyV.id t8
  let (mck, t10) ← parseCat parseAKey AKeyV.id t9
  let (nSubs, t11) ← readU32 t10
  some
    ({ id := h.1
       name := h.2.1
       description := h.2.2
       cipherSuite := suite
       keyExchangeParamsMap := kxp
       keyExchangeKeyMap := kxk
       authenticatorParamsMap := aup
       authenticatorKeyMap := auk
       masterCipherKey := master
       activeCipherKeyMap := act
       retiredCipherKeyMap := ret
       macKeyMap := mck
       cipherMap := []
       authenticatorMap := []
       macMap := []
       keyExchangeMap := [] }, nSubs, t11)

/-- `KeyRing::KeyRing (util::Serializer &)`: the deserializing
constructor, reading the fields in the order `Serialize` wrote them and
rebuilding each map; the caches start out empty. -/
def deserializeRing (fuel : Nat) (toks : List Tok) : Option (KeyRing × List Tok) :=
    elimO (parseRingPrefix toks)
      (fun p =>
        match fuel with
        | 0 => if p.2.1 = 0 then some (KeyRing.mk p.1 [], p.2.2) else none
        | f + 1 =>
          elimO (readItems (deserializeRing f) p.2.1 p.2.2)
            (fun q =>
              elimO (rebuildMap KeyRing.ringId [] q.1)
                (fun m => some (KeyRing.mk p.1 m, q.2))
                (fun _ => none))
            (fun _ => none))
      (fun _ => none)

/-! ### Well-formedness

`wfB fuel r` states the representation invariants every ring reachable
through the public API maintains (each map sorted by key, counts below
`2^32` so the `ui32` casts are lossless), and that the sub-ring nesting
depth is at most `fuel`. -/

/-- U32 bound on a count. -/
def u32ok (n : Nat) : Bool := decide (n < 4294967296)

/-- Invariants of the non-recursive fields. -/
def wfData (d : RingData) : Bool :=
  sortedKeysB ParamsV.id natLt d.keyExchangeParamsMap &&
  sortedKeysB AKeyV.id natLt d.keyExchangeKeyMap &&
  sortedKeysB ParamsV.id natLt d.authenticatorParamsMap &&
  sortedKeysB AKeyV.id natLt d.authenticatorKeyMap &&
  sortedKeysB SKeyV.id natLt d.activeCipherKeyMap &&
  sortedKeysB SKeyV.id natLt d.retiredCipherKeyMap &&
  sortedKeysB AKeyV.id natLt d.macKeyMap &&
  u32ok d.keyExchangeParamsMap.length &&
  u32ok d.keyExchangeKeyMap.length &&
  u32ok d.authenticatorParamsMap.length &&
  u32ok d.authenticatorKeyMap.length &&
  u32ok d.activeCipherKeyMap.length &&
  u32ok d.retiredCipherKeyMap.length &&
  u32ok d.macKeyMap.length &&
  u32ok d.masterCipherKey.data.length &&
  d.activeCipherKeyMap.all (fun k => u32ok k.data.length) &&
  d.retiredCipherKeyMap.all (fun k => u32ok k.data.length) &&
  d.keyExchangeParamsMap.all (fun p => u32ok p.payload.length) &&
  d.authenticatorParamsMap.all (fun p => u32ok p.payload.length)

/-- Ring invariants to depth `fuel`. -/
def wfB (fuel : Nat) (r : KeyRing) : Bool :=
  wfData r.data &&
  sortedKeysB KeyRing.ringId natLt r.subrings &&
  u32ok r.subrings.length &&
  (match fuel with
   | 0 => r.subrings.isEmpty
   | f + 1 => r.subrings.all (wfB f))

/-- Erase the (unserialized) derived-object caches, recursively. -/
def stripCaches (fuel : Nat) (r : KeyRing) : KeyRing :=
    KeyRing.mk
      { r.data with
        cipherMap := []
        authenticatorMap := []
        macMap := []
        keyExchangeMap := [] }
      (match fuel with
       | 0 => []
       | f + 1 => r.subrings.map (stripCaches f))

/-! ## Heap model of `AddSubring` (for the acyclicity claim)

`KeyRing::AddSubring` takes a reference-counted pointer to an existing
ring object, so the sub-ring structure is a graph over ring *objects*,
not a tree of values: the same object (even the receiver itself) can be
passed in.  A heap maps each allocated ring reference to its id and its
list of sub-ring references. -/

/-- Heap of ring objects: `(reference, id, sub-ring references)`. -/
abbrev Heap := List (Nat × Nat × List Nat)

/-- Id of the ring object behind a reference. -/
def hid (h : Heap) (r : Nat) : Nat :=
  ((mfind Prod.fst r h).map fun e => e.2.1).getD 0

/-- Sub-ring references of the ring object behind a reference. -/
def hchildren (h : Heap) (r : Nat) : List Nat :=
  ((mfind Prod.fst r h).map fun e => e.2.2).getD []

/-- Replace the sub-ring list of the object behind reference `r`. -/
def hsetChildren (h : Heap) (r : Nat) (cs : List Nat) : Heap :=
  h.map fun e => if e.1 = r then (e.1, e.2.1, cs) else e

/-- `KeyRing::AddSubring` on the object behind `parent`, passing the
object behind `child` (a non-null pointer): reject only a duplicate id
in the parent's sub-ring map, otherwise insert.  No cycle check is
performed. -/
def haddSubring (h : Heap) (parent child : Nat) : Heap × Bool :=
  if (hchildren h parent).any (fun c => hid h c = hid h child) then (h, false)
  else (hsetChildren h parent (hchildren h parent ++ [child]), true)

/-- Reference `b` is reachable from reference `a` by one or more
sub-ring traversal steps. -/
inductive HReach (h : Heap) : Nat → Nat → Prop where
  | single {a b : Nat} : b ∈ hchildren h a → HReach h a b
  | cons {a b c : Nat} : b ∈ hchildren h a → HReach h b c → HReach h a c

/-- No ring object reaches itself through sub-ring traversal. -/
def Acyclic (h : Heap) : Prop := ∀ r, ¬ HReach h r r

/-! ## `SymmetricKey::FromSecretAndSalt` (`SymmetricKey.cpp`)

The OpenSSL digest is abstracted as a function `md` from a message to
its digest bytes (an `EVP_MD_CTX` fed by `Update` calls computes the
digest of the concatenation of its updates); the hypotheses of the
theorems fix its output length.  A null `md` pointer is `none`; a null
or empty secret is the empty list (both are rejected identically). -/

/-- The `for (i = 1; i < count; ++i)` re-digest loop: apply `md` to the
buffer `n` times. -/
def redig (md : List Nat → List Nat) : Nat → List Nat → List Nat
  | 0, b => b
  | n + 1, b => redig md n (md b)

/-- One outer round: digest previous output (empty on the first round),
secret, salt (absent = empty), then re-digest `count - 1` times. -/
def fssRound (md : List Nat → List Nat) (secret salt buffer : List Nat)
    (count : Nat) : List Nat :=
  redig md (count - 1) (md (buffer ++ secret ++ salt))

/-- The `while (keyLength > 0)` loop: each round contributes
`min remaining digestLength` bytes.  The fuel argument (instantiated
with the requested key length, which bounds the number of rounds as
long as the digest is non-empty) makes the recursion structural. -/
def fssLoop (md : List Nat → List Nat) (secret salt : List Nat) (count : Nat) :
    Nat → Nat → List Nat → List Nat
  | 0, _, _ => []
  | fuel + 1, remaining, buffer =>
    if remaining = 0 then []
    else
      let b := fssRound md secret salt buffer count
      let n := min remaining b.length
      b.take n ++ fssLoop md secret salt count fuel (remaining - n) b

/-- `SymmetricKey::FromSecretAndSalt`: argument validation, then the
derivation loop; `none` is the `EINVAL` throw. -/
def fromSecretAndSalt (md : Option (List Nat → List Nat)) (keyLength : Nat)
    (secret salt : List Nat) (count : Nat) : Option (List Nat) :=
  match md with
  | some d =>
    if keyLength > 0 && !secret.isEmpty && count > 0 then
      some (fssLoop d secret salt count keyLength keyLength [])
    else none
  | none => none

/-- The spec's reference algorithm, §6 of the spec: the stream of
`rounds` full digest outputs, each round digesting the previous round's
full output, the secret and the salt and re-digesting `count - 1`
further times; the derived key is a prefix of this stream. -/
def specIteratedDigest (md : List Nat → List Nat) (secret salt : List Nat)
    (count : Nat) : Nat → List Nat → List Nat
  | 0, _ => []
  | n + 1, prev =>
    let b := fssRound md secret salt prev count
    b ++ specIteratedDigest md secret salt count n b

/-! ## `HMAC::CreateKey` (`HMAC.cpp`) -/

/-- `HMAC::CreateKey`: argument validation, then derivation via
`SymmetricKey::FromSecretAndSalt` with key length `EVP_MD_size (md)`
(passed here as `mdSize`); the result is the secret installed in the
generated MAC key.  `none` is the `EINVAL` / OpenSSL-failure throw. -/
def hmacCreateKey (md : Option (List Nat → List Nat)) (mdSize : Nat)
    (secret salt : List Nat) (count : Nat) : Option (List Nat) :=
  match md with
  | some d =>
    if !secret.isEmpty then fromSecretAndSalt (some d) mdSize secret salt count
    else none
  | none => none

/-! ## `Ed25519Signer::Ed25519Signer` (`Ed25519Signer.cpp`) -/

/-- The key interface the signer constructor inspects: the
private/public flag and the key-type tag returned by `GetKeyType`
(compared against `Ed25519AsymmetricKey::KEY_TYPE`). -/
structure SigKeyV where
  isPrivate : Bool
  keyType : String
deriving DecidableEq

/-- `Ed25519AsymmetricKey::KEY_TYPE` (an opaque type-identity
constant). -/
def ed25519KeyType : String := "Ed25519AsymmetricKey"

/-- `Ed25519Signer::Ed25519Signer`: throws `EINVAL` for a null key, a
public-only key, or a key of a different type; otherwise the signer
holds the key. -/
def ed25519SignerMake (privateKey : Option SigKeyV) : Except Unit SigKeyV :=
  match privateKey with
  | some k =>
    if !k.isPrivate || k.keyType ≠ ed25519KeyType then .error () else .ok k
  | none => .error ()

/-! ## Reference definition for the recursive-lookup-order claim

The spec asserts that a recursive `Get*` examines sub-rings in the
order `AddSubring` inserted them; this definition follows those words
(taking the insertion sequence as an explicit argument), to be compared
against `getCipherKey`, which walks the sub-ring map in its own
(id-sorted) order. -/

/-- Spec-ordered recursive cipher-key lookup: local maps exactly as the
code, then the sub-rings in the order they were inserted. -/
def getCipherKeyInsertionOrder (fuel : Nat) (r : KeyRing)
    (inserted : List KeyRing) (keyId : Nat) : Option SKeyV :=
  if r.data.masterCipherKey.id = keyId then some r.data.masterCipherKey
  else
    match mfind SKeyV.id keyId r.data.activeCipherKeyMap with
    | some k => some k
    | none =>
      match mfind SKeyV.id keyId r.data.retiredCipherKeyMap with
      | some k => some k
      | none =>
        match fuel with
        | 0 => none
        | f + 1 => inserted.findSome? fun s => getCipherKey f s keyId true

/-- The comparison the round-trip claim asks for: equal id, cipher
suite, master cipher key, every category map, and the same sub-ring id
set. -/
def SameCategories (r1 r2 : KeyRing) : Prop :=
  r1.data.id = r2.data.id ∧
  r1.data.cipherSuite = r2.data.cipherSuite ∧
  r1.data.masterCipherKey = r2.data.masterCipherKey ∧
  r1.data.keyExchangeParamsMap = r2.data.keyExchangeParamsMap ∧
  r1.data.keyExchangeKeyMap = r2.data.keyExchangeKeyMap ∧
  r1.data.authenticatorParamsMap = r2.data.authenticatorParamsMap ∧
  r1.data.authenticatorKeyMap = r2.data.authenticatorKeyMap ∧
  r1.data.activeCipherKeyMap = r2.data.activeCipherKeyMap ∧
  r1.data.retiredCipherKeyMap = r2.data.retiredCipherKeyMap ∧
  r1.data.macKeyMap = r2.data.macKeyMap ∧
  r1.subrings.map KeyRing.ringId = r2.subrings.map KeyRing.ringId

/-! ## Small fixtures used by the concrete witnesses -/

/-- Fold a sequence of `AddSubring` calls (each with a non-null
argument, for which `AddSubring` cannot throw). -/
def addSubrings (r : KeyRing) (l : List KeyRing) : KeyRing :=
  l.foldl
    (fun acc s =>
      match addSubring acc (some s) with
      | .ok (_, acc1) => acc1
      | .error _ => acc)
    r

/-- A symmetric key with the given id and name and no bytes. -/
def skeyN (i : Nat) (nm : String) : SKeyV :=
  ⟨i, nm, "", []⟩

/-- A private asymmetric key with the given id and name. -/
def akeyN (i : Nat) (nm : String) : AKeyV :=
  ⟨i, nm, "", true, 0, []⟩

/-- Params with the given id and name. -/
def paramsN (i : Nat) (nm : String) : ParamsV :=
  ⟨i, nm, "", []⟩

/-- Ring data with the given id and master key and all maps empty. -/
def emptyData (i : Nat) (master : SKeyV) : RingData :=
  ⟨i, "", "", "", [], [], [], [], master, [], [], [], [], [], [], []⟩

/-- A ring with the given id and master key and no contents. -/
def emptyRing (i : Nat) (master : SKeyV) : KeyRing :=
  .mk (emptyData i master) []

/-- A suite whose every validation predicate accepts. -/
def permissiveSuite : SuiteOps :=
  ⟨fun _ => true, fun _ => true, fun _ => true,
   fun _ => true, fun _ => true, fun _ => true⟩

/-- The contract of the six `Add*` mutators (used to state one claim
uniformly over all six): a null argument throws, an argument failing
validation throws, a fresh id inserts and returns `true` (after which
the same argument returns `false` and leaves the ring unchanged), and a
present id returns `false` and leaves the ring unchanged. -/
def AddBehavior {α : Type} (key : α → Nat) (proj : KeyRing → List α)
    (verify : α → Bool) (add : KeyRing → Option α → Except Unit (Bool × KeyRing)) : Prop :=
  ∀ r k,
    add r none = .error () ∧
    (verify k = false → add r (some k) = .error ()) ∧
    (verify k = true → sortedKeysB key natLt (proj r) = true →
      (mfind key (key k) (proj r) = none →
        ∃ r1, add r (some k) = .ok (true, r1) ∧
          mfind key (key k) (proj r1) = some k ∧
          add r1 (some k) = .ok (false, r1)) ∧
      (∀ j, mfind key (key k) (proj r) = some j → add r (some k) = .ok (false, r)))

/-! # Theorems -/

/-! ## Association-list map lemmas -/

theorem mfind_some_key {κ α : Type} [DecidableEq κ] (key : α → κ) {k : κ}
    {l : List α} {v : α} (h : mfind key k l = some v) : key v = k := by
  induction l with
  | nil => simp [mfind] at h
  | cons a t ih =>
    by_cases ha : key a = k
    · simp [mfind, ha] at h
      subst h
      exact ha
    · simp [mfind, ha] at h
      exact ih h

theorem mfind_mem {κ α : Type} [DecidableEq κ] (key : α → κ) {k : κ}
    {l : List α} {v : α} (h : mfind key k l = some v) : v ∈ l := by
  induction l with
  | nil => simp [mfind] at h
  | cons a t ih =>
    by_cases ha : key a = k
    · simp [mfind, ha] at h
      simp [h]
    · simp [mfind, ha] at h
      exact List.mem_cons_of_mem a (ih h)

theorem mfind_eq_none_iff {κ α : Type} [DecidableEq κ] (key : α → κ) (k : κ)
    (l : List α) : mfind key k l = none ↔ k ∉ l.map key := by
  induction l with
  | nil => simp [mfind]
  | cons a t ih =>
    by_cases ha : key a = k
    · simp [mfind, ha]
    · simp [mfind, ha, ih]
      intro h
      exact fun hk => ha hk.symm

theorem mfind_merase_self {κ α : Type} [DecidableEq κ] (key : α → κ) (k : κ)
    {l : List α} (h : (l.map key).Nodup) : mfind key k (merase key k l) = none := by
  induction l with
  | nil => simp [merase, mfind]
  | cons a t ih =>
    simp only [List.map_cons, List.nodup_cons] at h
    by_cases ha : key a = k
    · simp only [merase, if_pos ha]
      rw [mfind_eq_none_iff]
      rw [← ha]
      exact h.1
    · simp only [merase, if_neg ha]
      rw [mfind]
      rw [if_neg ha]
      exact ih h.2

theorem mfind_merase_ne {κ α : Type} [DecidableEq κ] (key : α → κ) {j k : κ}
    (hjk : j ≠ k) (l : List α) : mfind key j (merase key k l) = mfind key j l := by
  induction l with
  | nil => simp [merase]
  | cons a t ih =>
    by_cases ha : key a = k
    · simp only [merase, if_pos ha]
      have haj : ¬ key a = j := fun hh => hjk (hh ▸ ha)
      rw [mfind, if_neg haj]
    · simp only [merase, if_neg ha]
      rw [mfind, mfind, ih]

theorem minsert_snd_false_fst {κ α : Type} [DecidableEq κ] (key : α → κ)
    (kLt : κ → κ → Bool) (v : α) (l : List α)
    (h : (minsert key kLt v l).2 = false) : (minsert key kLt v l).1 = l := by
  induction l with
  | nil => simp [minsert] at h
  | cons a t ih =>
    simp only [minsert] at h ⊢
    by_cases hlt : kLt (key v) (key a) = true
    · rw [if_pos hlt] at h
      simp at h
    · rw [if_neg hlt] at h ⊢
      by_cases heq : key v = key a
      · rw [if_pos heq] at h ⊢
      · rw [if_neg heq] at h ⊢
        simp only at h ⊢
        rw [ih h]

theorem mfind_minsert_self {κ α : Type} [DecidableEq κ] (key : α → κ)
    (kLt : κ → κ → Bool) (v : α) (l : List α)
    (h : (minsert key kLt v l).2 = true) :
    mfind key (key v) (minsert key kLt v l).1 = some v := by
  induction l with
  | nil => simp [minsert, mfind]
  | cons a t ih =>
    simp only [minsert] at h ⊢
    by_cases hlt : kLt (key v) (key a) = true
    · rw [if_pos hlt]
      simp [mfind]
    · rw [if_neg hlt] at h ⊢
      by_cases heq : key v = key a
      · rw [if_pos heq] at h
        simp at h
      · rw [if_neg heq] at h ⊢
        simp only at h ⊢
        rw [mfind, if_neg (fun hh => heq hh.symm)]
        exact ih h

theorem sortedKeysB_cons {α : Type} (key : α → Nat) {a : α} {t : List α}
    (h : sortedKeysB key natLt (a :: t) = true) :
    sortedKeysB key natLt t = true ∧ ∀ b ∈ t, key a < key b := by
  induction t generalizing a with
  | nil => exact ⟨rfl, by simp⟩
  | cons b t1 ih =>
    simp only [sortedKeysB, Bool.and_eq_true] at h
    obtain ⟨hab, hs⟩ := h
    have hab1 : key a < key b := by
      simpa [natLt] using hab
    refine ⟨hs, ?_⟩
    intro c hc
    rcases List.mem_cons.1 hc with hcb | hct
    · subst hcb
      exact hab1
    · exact lt_trans hab1 ((ih hs).2 c hct)

theorem sortedKeysB_cons_of {α : Type} (key : α → Nat) {a : α} {t : List α}
    (ht : sortedKeysB key natLt t = true) (hall : ∀ b ∈ t, key a < key b) :
    sortedKeysB key natLt (a :: t) = true := by
  cases t with
  | nil => rfl
  | cons b t1 =>
    simp only [sortedKeysB, Bool.and_eq_true]
    refine ⟨?_, ht⟩
    simp [natLt]
    exact hall b (List.mem_cons_self b t1)

theorem sorted_nodup_keys {α : Type} (key : α → Nat) {l : List α}
    (h : sortedKeysB key natLt l = true) : (l.map key).Nodup := by
  induction l with
  | nil => simp
  | cons a t ih =>
    obtain ⟨ht, hall⟩ := sortedKeysB_cons key h
    simp only [List.map_cons, List.nodup_cons]
    refine ⟨?_, ih ht⟩
    intro hmem
    obtain ⟨b, hb, hkb⟩ := List.mem_map.1 hmem
    exact absurd (hkb ▸ hall b hb) (lt_irrefl _)

theorem minsert_snd_true_of_absent {α : Type} (key : α → Nat) {v : α} {l : List α}
    (h : mfind key (key v) l = none) : (minsert key natLt v l).2 = true := by
  induction l with
  | nil => rfl
  | cons a t ih =>
    rw [mfind] at h
    by_cases ha : key a = key v
    · rw [if_pos ha] at h
      exact absurd h (by simp)
    · rw [if_neg ha] at h
      simp only [minsert]
      by_cases hlt : natLt (key v) (key a) = true
      · rw [if_pos hlt]
      · rw [if_neg hlt, if_neg (fun hh => ha hh.symm)]
        exact ih h

theorem minsert_snd_false_of_present {α : Type} (key : α → Nat) {v j : α} {l : List α}
    (hs : sortedKeysB key natLt l = true) (h : mfind key (key v) l = some j) :
    (minsert key natLt v l).2 = false := by
  induction l with
  | nil => simp [mfind] at h
  | cons a t ih =>
    obtain ⟨ht, hall⟩ := sortedKeysB_cons key hs
    rw [mfind] at h
    simp only [minsert]
    by_cases ha : key a = key v
    · have hlt : ¬ natLt (key v) (key a) = true := by
        simp [natLt, ha]
      rw [if_neg hlt, if_pos ha.symm]
    · rw [if_neg ha] at h
      have hj : key j = key v := mfind_some_key key h
      have hjm : j ∈ t := mfind_mem key h
      have hav : key a < key v := hj ▸ hall j hjm
      have hlt : ¬ natLt (key v) (key a) = true := by
        simp [natLt]
        omega
      rw [if_neg hlt, if_neg (fun hh => ha hh.symm)]
      exact ih ht h

theorem minsert_perm {κ α : Type} [DecidableEq κ] (key : α → κ) (kLt : κ → κ → Bool)
    {v : α} {l : List α} (h : (minsert key kLt v l).2 = true) :
    (minsert key kLt v l).1.Perm (v :: l) := by
  induction l with
  | nil => simp [minsert]
  | cons a t ih =>
    simp only [minsert] at h ⊢
    by_cases hlt : kLt (key v) (key a) = true
    · rw [if_pos hlt]
    · rw [if_neg hlt] at h ⊢
      by_cases heq : key v = key a
      · rw [if_pos heq] at h
        simp at h
      · rw [if_neg heq] at h ⊢
        simp only at h ⊢
        exact ((ih h).cons a).trans (List.Perm.swap v a t)

theorem minsert_sorted_of_absent {α : Type} (key : α → Nat) {v : α} {l : List α}
    (hs : sortedKeysB key natLt l = true) (h : mfind key (key v) l = none) :
    sortedKeysB key natLt (minsert key natLt v l).1 = true := by
  induction l with
  | nil => rfl
  | cons a t ih =>
    obtain ⟨ht, hall⟩ := sortedKeysB_cons key hs
    rw [mfind] at h
    by_cases ha : key a = key v
    · rw [if_pos ha] at h
      exact absurd h (by simp)
    · rw [if_neg ha] at h
      simp only [minsert]
      by_cases hlt : natLt (key v) (key a) = true
      · rw [if_pos hlt]
        refine sortedKeysB_cons_of key hs ?_
        intro b hb
        have hva : key v < key a := by
          simpa [natLt] using hlt
        rcases List.mem_cons.1 hb with hba | hbt
        · subst hba
          exact hva
        · exact lt_trans hva (hall b hbt)
      · rw [if_neg hlt, if_neg (fun hh => ha hh.symm)]
        simp only
        refine sortedKeysB_cons_of key (ih ht h) ?_
        intro b hb
        have hsnd : (minsert key natLt v t).2 = true := minsert_snd_true_of_absent key h
        have hmem := (minsert_perm key natLt hsnd).mem_iff.1 hb
        rcases List.mem_cons.1 hmem with hbv | hbt
        · have hav : ¬ key v < key a := by
            simpa [natLt] using hlt
          rw [hbv]
          omega
        · exact hall b hbt

/-! ## C6: the `Add*` mutators -/

theorem addBehavior_generic {α : Type} (key : α → Nat) (proj : KeyRing → List α)
    (verify : α → Bool) (upd : KeyRing → List α → KeyRing)
    (add : KeyRing → Option α → Except Unit (Bool × KeyRing))
    (hadd_none : ∀ r, add r none = .error ())
    (hadd_some : ∀ r k, add r (some k) =
      if verify k then
        .ok ((minsert key natLt k (proj r)).2, upd r (minsert key natLt k (proj r)).1)
      else .error ())
    (hproj_upd : ∀ r m, proj (upd r m) = m)
    (hupd_self : ∀ r, upd r (proj r) = r) :
    AddBehavior key proj verify add := by
  intro r k
  refine ⟨hadd_none r, ?_, ?_⟩
  · intro hv
    rw [hadd_some, if_neg (by simp [hv])]
  · intro hv hs
    constructor
    · intro hfresh
      have hsnd := minsert_snd_true_of_absent key hfresh
      refine ⟨upd r (minsert key natLt k (proj r)).1, ?_, ?_, ?_⟩
      · rw [hadd_some, if_pos hv, hsnd]
      · rw [hproj_upd]
        exact mfind_minsert_self key natLt k (proj r) hsnd
      · rw [hadd_some, if_pos hv, hproj_upd]
        have hfind : mfind key (key k) (minsert key natLt k (proj r)).1 = some k :=
          mfind_minsert_self key natLt k (proj r) hsnd
        have hsorted : sortedKeysB key natLt (minsert key natLt k (proj r)).1 = true :=
          minsert_sorted_of_absent key hs hfresh
        have hsnd2 := minsert_snd_false_of_present key hsorted hfind
        have hfst2 := minsert_snd_false_fst key natLt k (minsert key natLt k (proj r)).1 hsnd2
        have hself : upd (upd r (minsert key natLt k (proj r)).1)
            (minsert key natLt k (proj r)).1 = upd r (minsert key natLt k (proj r)).1 := by
          have h1 := hupd_self (upd r (minsert key natLt k (proj r)).1)
          rwa [hproj_upd] at h1
        rw [hsnd2, hfst2, hself]
    · intro j hj
      have hsnd := minsert_snd_false_of_present key hs hj
      have hfst := minsert_snd_false_fst key natLt k (proj r) hsnd
      rw [hadd_some, if_pos hv, hsnd, hfst, hupd_self]

/-- C6: each of the six `Add*` mutators throws `EINVAL` on a null or
validation-failing argument (without inserting), returns `true` when no
object with the same id is present (after which adding the same object
again returns `false`), and returns `false`, leaving the ring
unchanged, on a duplicate id. -/
theorem add_operations_spec (ops : SuiteOps) :
    AddBehavior ParamsV.id (fun r => r.data.keyExchangeParamsMap)
      ops.verifyKeyExchangeParams (addKeyExchangeParams ops) ∧
    AddBehavior AKeyV.id (fun r => r.data.keyExchangeKeyMap)
      ops.verifyKeyExchangeKey (addKeyExchangeKey ops) ∧
    AddBehavior ParamsV.id (fun r => r.data.authenticatorParamsMap)
      ops.verifyAuthenticatorParams (addAuthenticatorParams ops) ∧
    AddBehavior AKeyV.id (fun r => r.data.authenticatorKeyMap)
      ops.verifyAuthenticatorKey (addAuthenticatorKey ops) ∧
    AddBehavior SKeyV.id (fun r => r.data.activeCipherKeyMap)
      ops.verifyCipherKey (addCipherActiveKey ops) ∧
    AddBehavior AKeyV.id (fun r => r.data.macKeyMap)
      ops.verifyMACKey (addMACKey ops) := by
  refine ⟨?_, ?_, ?_, ?_, ?_, ?_⟩
  · exact addBehavior_generic _ _ _
      (fun r m => r.withData { r.data with keyExchangeParamsMap := m }) _
      (fun r => rfl)
      (fun r k => by rw [addKeyExchangeParams])
      (fun r m => rfl)
      (fun r => by cases r; rfl)
  · exact addBehavior_generic _ _ _
      (fun r m => r.withData { r.data with keyExchangeKeyMap := m }) _
      (fun r => rfl)
      (fun r k => by rw [addKeyExchangeKey])
      (fun r m => rfl)
      (fun r => by cases r; rfl)
  · exact addBehavior_generic _ _ _
      (fun r m => r.withData { r.data with authenticatorParamsMap := m }) _
      (fun r => rfl)
      (fun r k => by rw [addAuthenticatorParams])
      (fun r m => rfl)
      (fun r => by cases r; rfl)
  · exact addBehavior_generic _ _ _
      (fun r m => r.withData { r.data with authenticatorKeyMap := m }) _
      (fun r => rfl)
      (fun r k => by rw [addAuthenticatorKey])
      (fun r m => rfl)
      (fun r => by cases r; rfl)
  · exact addBehavior_generic _ _ _
      (fun r m => r.withData { r.data with activeCipherKeyMap := m }) _
      (fun r => rfl)
      (fun r k => by rw [addCipherActiveKey])
      (fun r m => rfl)
      (fun r => by cases r; rfl)
  · exact addBehavior_generic _ _ _
      (fun r m => r.withData { r.data with macKeyMap := m }) _
      (fun r => rfl)
      (fun r k => by rw [addMACKey])
      (fun r m => rfl)
      (fun r => by cases r; rfl)

theorem merase_sublist {κ α : Type} [DecidableEq κ] (key : α → κ) (k : κ)
    (l : List α) : (merase key k l).Sublist l := by
  induction l with
  | nil => simp [merase]
  | cons a t ih =>
    by_cases ha : key a = k
    · simp only [merase, if_pos ha]
      exact (List.sublist_cons_self a t)
    · simp only [merase, if_neg ha]
      exact ih.cons₂ a

theorem nodup_keys_merase {κ α : Type} [DecidableEq κ] (key : α → κ) (k : κ)
    {l : List α} (h : (l.map key).Nodup) : ((merase key k l).map key).Nodup :=
  ((merase_sublist key k l).map key).nodup h

/-- C9: constructing an `Ed25519Signer` throws `EINVAL` exactly when
the supplied key is null, public-only, or not an Ed25519 key, and
succeeds (holding the key) exactly for private Ed25519 keys. -/
theorem ed25519_signer_ctor_spec (k : Option SigKeyV) :
    (ed25519SignerMake k = .error () ↔
      k = none ∨ ∃ key0, k = some key0 ∧
        (key0.isPrivate = false ∨ key0.keyType ≠ ed25519KeyType)) ∧
    (∀ key0, k = some key0 → key0.isPrivate = true →
      key0.keyType = ed25519KeyType → ed25519SignerMake k = .ok key0) := by
  cases k with
  | none =>
    constructor
    · simp [ed25519SignerMake]
    · intro key0 h
      simp at h
  | some key0 =>
    constructor
    · by_cases hp : key0.isPrivate = true
      · by_cases ht : key0.keyType = ed25519KeyType
        · simp [ed25519SignerMake, hp, ht]
        · simp [ed25519SignerMake, hp, ht]
      · simp [ed25519SignerMake, hp]
    · intro key1 h hp ht
      have h1 : key0 = key1 := by
        simpa using h
      subst h1
      simp [ed25519SignerMake, hp, ht]

/-- Witness for C6 at a concrete ring and key: the first add returns
`true`, the second add of the same key returns `false`. -/
theorem add_operations_spec_witness :
    ∃ r1, addCipherActiveKey permissiveSuite (emptyRing 0 (skeyN 5 ""))
        (some (skeyN 7 "")) = .ok (true, r1) ∧
      addCipherActiveKey permissiveSuite r1 (some (skeyN 7 "")) = .ok (false, r1) := by
  have h := (add_operations_spec permissiveSuite).2.2.2.2.1
    (emptyRing 0 (skeyN 5 "")) (skeyN 7 "")
  obtain ⟨r1, h1, _h2, h3⟩ := (h.2.2 (by rfl) (by rfl)).1 (by rfl)
  exact ⟨r1, h1, h3⟩

/-! ## C4: `RetireActiveCipherKey` -/

/-- C4 counterexample: a ring whose active map and retired map both
hold a key with id 3 (such rings are reachable: add, retire, add
again).  The claim predicts `RetireActiveCipherKey (3)` returns `true`;
the code throws instead (the retired-map insert fails), leaving the
key active. -/
theorem retire_counterexample :
    mfind SKeyV.id 3 (KeyRing.mk
      { emptyData 0 (skeyN 0 "") with
        activeCipherKeyMap := [skeyN 3 "a"]
        retiredCipherKeyMap := [skeyN 3 "b"] } []).data.activeCipherKeyMap =
      some (skeyN 3 "a") ∧
    retireActiveCipherKey 0 (KeyRing.mk
      { emptyData 0 (skeyN 0 "") with
        activeCipherKeyMap := [skeyN 3 "a"]
        retiredCipherKeyMap := [skeyN 3 "b"] } []) 3 false = .error () := by
  constructor
  · rfl
  · rfl

/-- C4 (amended): if the active map holds a key with id `keyId` and the
retired map does not already hold that id, `RetireActiveCipherKey`
returns `true`; afterwards the id is in the retired map and gone from
the active map, `GetCipherKey (keyId)` returns exactly what it returned
before, and the derived-cipher cache is untouched. -/
theorem retire_active_cipher_key_spec (r : KeyRing) (keyId : Nat) (k : SKeyV)
    (fuel : Nat) (recursive : Bool)
    (hact : mfind SKeyV.id keyId r.data.activeCipherKeyMap = some k)
    (hnact : (r.data.activeCipherKeyMap.map SKeyV.id).Nodup)
    (hsret : sortedKeysB SKeyV.id natLt r.data.retiredCipherKeyMap = true)
    (hret : mfind SKeyV.id keyId r.data.retiredCipherKeyMap = none) :
    ∃ r1, retireActiveCipherKey fuel r keyId recursive = .ok (true, r1) ∧
      mfind SKeyV.id keyId r1.data.retiredCipherKeyMap = some k ∧
      mfind SKeyV.id keyId r1.data.activeCipherKeyMap = none ∧
      r1.data.cipherMap = r.data.cipherMap ∧
      ∀ f2 b, getCipherKey f2 r1 keyId b = getCipherKey f2 r keyId b := by
  obtain ⟨d, subs⟩ := r
  simp only [KeyRing.data] at hact hnact hsret hret ⊢
  have hkid : SKeyV.id k = keyId := mfind_some_key SKeyV.id hact
  have hretk : mfind SKeyV.id (SKeyV.id k) d.retiredCipherKeyMap = none := by
    rw [hkid]
    exact hret
  have hsnd : (minsert SKeyV.id natLt k d.retiredCipherKeyMap).2 = true :=
    minsert_snd_true_of_absent SKeyV.id hretk
  have hfr : mfind SKeyV.id keyId (minsert SKeyV.id natLt k d.retiredCipherKeyMap).1 =
      some k := by
    rw [← hkid]
    exact mfind_minsert_self SKeyV.id natLt k d.retiredCipherKeyMap hsnd
  have hfa : mfind SKeyV.id keyId (merase SKeyV.id keyId d.activeCipherKeyMap) = none :=
    mfind_merase_self SKeyV.id keyId hnact
  refine ⟨KeyRing.mk { d with
      activeCipherKeyMap := merase SKeyV.id keyId d.activeCipherKeyMap
      retiredCipherKeyMap := (minsert SKeyV.id natLt k d.retiredCipherKeyMap).1 } subs,
    ?_, ?_, ?_, rfl, ?_⟩
  · rw [retireActiveCipherKey.eq_def]
    simp only [KeyRing.data, KeyRing.withData, KeyRing.subrings]
    rw [hact]
    simp [elimO, hsnd]
  · simpa only [KeyRing.data] using hfr
  · simpa only [KeyRing.data] using hfa
  · intro f2 b
    rw [getCipherKey.eq_def, getCipherKey.eq_def]
    simp only [KeyRing.data]
    by_cases hm : d.masterCipherKey.id = keyId
    · rw [if_pos hm, if_pos hm]
    · rw [if_neg hm, if_neg hm, hact, hfa, hret, hfr]
      simp [elimO]

/-- Witness for C4 at a concrete ring: active key with id 3, empty
retired map. -/
theorem retire_active_cipher_key_spec_witness :
    ∃ r1, retireActiveCipherKey 0 (KeyRing.mk
        { emptyData 0 (skeyN 0 "") with activeCipherKeyMap := [skeyN 3 "k"] } [])
        3 false = .ok (true, r1) ∧
      mfind SKeyV.id 3 r1.data.retiredCipherKeyMap = some (skeyN 3 "k") ∧
      mfind SKeyV.id 3 r1.data.activeCipherKeyMap = none := by
  obtain ⟨r1, h1, h2, h3, _⟩ := retire_active_cipher_key_spec
    (KeyRing.mk
      { emptyData 0 (skeyN 0 "") with activeCipherKeyMap := [skeyN 3 "k"] } [])
    3 (skeyN 3 "k") 0 false (by rfl) (by decide) (by rfl) (by rfl)
  exact ⟨r1, h1, h2, h3⟩

/-! ## C5: `Drop*` followed by the derived-object `Get*` -/

/-- C5 counterexample: a ring whose master key has id 5 while the
active map also holds a (distinct) key with id 5 (`AddCipherActiveKey`
only consults the active map, so such rings are reachable).
`DropActiveCipherKey (5)` succeeds, yet `GetCipher (5, false)` on the
same ring still returns a cipher — built from the master key — rather
than the not-found empty pointer the claim requires. -/
theorem drop_then_get_counterexample :
    dropActiveCipherKey 0 (KeyRing.mk
      { emptyData 0 (skeyN 5 "m") with activeCipherKeyMap := [skeyN 5 "a"] } [])
      5 false =
      .ok (true, KeyRing.mk { emptyData 0 (skeyN 5 "m") with
        activeCipherKeyMap := [] } []) ∧
    getCipher 0 (KeyRing.mk { emptyData 0 (skeyN 5 "m") with
        activeCipherKeyMap := [] } []) 5 false =
      .ok (some (CipherV.mk (skeyN 5 "m")), KeyRing.mk { emptyData 0 (skeyN 5 "m") with
        activeCipherKeyMap := []
        cipherMap := [(5, CipherV.mk (skeyN 5 "m"))] } []) := by
  constructor
  · rfl
  · rfl

/-- C5 (amended): after a successful local `DropActiveCipherKey (id)`
— provided `id` is neither the master key's id nor retired, the two
aliasing situations in which a cipher key with that id remains findable
— `GetCipher (id, false)` returns the empty pointer, and the dropped
cache entry is gone; `DropMACKey` with `GetMAC` and
`DropAuthenticatorKey` with `GetAuthenticator` behave analogously with
no proviso. -/
theorem drop_then_get_not_found (r : KeyRing) (keyId : Nat) (fuel f2 : Nat)
    (recursive : Bool) :
    (∀ k, mfind SKeyV.id keyId r.data.activeCipherKeyMap = some k →
      (r.data.activeCipherKeyMap.map SKeyV.id).Nodup →
      (r.data.cipherMap.map Prod.fst).Nodup →
      r.data.masterCipherKey.id ≠ keyId →
      mfind SKeyV.id keyId r.data.retiredCipherKeyMap = none →
      ∃ r1, dropActiveCipherKey fuel r keyId recursive = .ok (true, r1) ∧
        mfind Prod.fst keyId r1.data.cipherMap = none ∧
        getCipher f2 r1 keyId false = .ok (none, r1)) ∧
    (∀ k, mfind AKeyV.id keyId r.data.macKeyMap = some k →
      (r.data.macKeyMap.map AKeyV.id).Nodup →
      (r.data.macMap.map Prod.fst).Nodup →
      ∃ r1, dropMACKey fuel r keyId recursive = .ok (true, r1) ∧
        mfind Prod.fst keyId r1.data.macMap = none ∧
        getMAC f2 r1 keyId false = .ok (none, r1)) ∧
    (∀ k, mfind AKeyV.id keyId r.data.authenticatorKeyMap = some k →
      (r.data.authenticatorKeyMap.map AKeyV.id).Nodup →
      (r.data.authenticatorMap.map Prod.fst).Nodup →
      ∃ r1, dropAuthenticatorKey fuel r keyId recursive = .ok (true, r1) ∧
        ∀ op, mfind Prod.fst (op, keyId) r1.data.authenticatorMap = none ∧
          getAuthenticator f2 r1 op keyId false = .ok (none, r1)) := by
  obtain ⟨d, subs⟩ := r
  simp only [KeyRing.data]
  refine ⟨?_, ?_, ?_⟩
  · intro k hact hnact hncm hm hret
    have hca : mfind Prod.fst keyId (merase Prod.fst keyId d.cipherMap) = none :=
      mfind_merase_self Prod.fst keyId hncm
    have hfa : mfind SKeyV.id keyId (merase SKeyV.id keyId d.activeCipherKeyMap) = none :=
      mfind_merase_self SKeyV.id keyId hnact
    refine ⟨KeyRing.mk { d with
        activeCipherKeyMap := merase SKeyV.id keyId d.activeCipherKeyMap
        cipherMap := merase Prod.fst keyId d.cipherMap } subs, ?_, ?_, ?_⟩
    · rw [dropActiveCipherKey.eq_def]
      simp only [KeyRing.data, KeyRing.withData, KeyRing.subrings]
      rw [hact]
      simp [elimO]
    · simpa only [KeyRing.data] using hca
    · have hck : getCipherKey 0 (KeyRing.mk { d with
          activeCipherKeyMap := merase SKeyV.id keyId d.activeCipherKeyMap
          cipherMap := merase Prod.fst keyId d.cipherMap } subs) keyId false = none := by
        rw [getCipherKey.eq_def]
        simp only [KeyRing.data]
        rw [if_neg hm, hfa, hret]
        simp [elimO]
      rw [getCipher.eq_def]
      simp only [KeyRing.data]
      rw [hca, hck]
      simp [elimO]
  · intro k hmk hnmk hnmm
    have hcm : mfind Prod.fst keyId (merase Prod.fst keyId d.macMap) = none :=
      mfind_merase_self Prod.fst keyId hnmm
    have hfk : mfind AKeyV.id keyId (merase AKeyV.id keyId d.macKeyMap) = none :=
      mfind_merase_self AKeyV.id keyId hnmk
    refine ⟨KeyRing.mk { d with
        macKeyMap := merase AKeyV.id keyId d.macKeyMap
        macMap := merase Prod.fst keyId d.macMap } subs, ?_, ?_, ?_⟩
    · rw [dropMACKey.eq_def]
      simp only [KeyRing.data, KeyRing.withData, KeyRing.subrings]
      rw [hmk]
      simp [elimO]
    · simpa only [KeyRing.data] using hcm
    · have hgk : getMACKey 0 (KeyRing.mk { d with
          macKeyMap := merase AKeyV.id keyId d.macKeyMap
          macMap := merase Prod.fst keyId d.macMap } subs) keyId false = none := by
        rw [getMACKey.eq_def]
        simp only [KeyRing.data]
        rw [hfk]
        simp [elimO]
      rw [getMAC.eq_def]
      simp only [KeyRing.data]
      rw [hcm, hgk]
      simp [elimO]
  · intro k hak hnak hnam
    have hfk : mfind AKeyV.id keyId (merase AKeyV.id keyId d.authenticatorKeyMap) = none :=
      mfind_merase_self AKeyV.id keyId hnak
    have hsv : ((AuthOp.sign, keyId) : AuthMapKey) ≠ (AuthOp.verify, keyId) := by
      simp
    have hcs : mfind Prod.fst ((AuthOp.sign, keyId) : AuthMapKey)
        (merase Prod.fst (AuthOp.verify, keyId)
          (merase Prod.fst (AuthOp.sign, keyId) d.authenticatorMap)) = none := by
      rw [mfind_merase_ne Prod.fst hsv]
      exact mfind_merase_self Prod.fst _ hnam
    have hcv : mfind Prod.fst ((AuthOp.verify, keyId) : AuthMapKey)
        (merase Prod.fst (AuthOp.verify, keyId)
          (merase Prod.fst (AuthOp.sign, keyId) d.authenticatorMap)) = none :=
      mfind_merase_self Prod.fst _ (nodup_keys_merase Prod.fst _ hnam)
    refine ⟨KeyRing.mk { d with
        authenticatorKeyMap := merase AKeyV.id keyId d.authenticatorKeyMap
        authenticatorMap := merase Prod.fst (AuthOp.verify, keyId)
          (merase Prod.fst (AuthOp.sign, keyId) d.authenticatorMap) } subs, ?_, ?_⟩
    · rw [dropAuthenticatorKey.eq_def]
      simp only [KeyRing.data, KeyRing.withData, KeyRing.subrings]
      rw [hak]
      simp [elimO]
    · intro op
      have hc : mfind Prod.fst ((op, keyId) : AuthMapKey)
          (merase Prod.fst (AuthOp.verify, keyId)
            (merase Prod.fst (AuthOp.sign, keyId) d.authenticatorMap)) = none := by
        cases op
        · exact hcs
        · exact hcv
      constructor
      · simpa only [KeyRing.data] using hc
      · have hgk : getAuthenticatorKey 0 (KeyRing.mk { d with
            authenticatorKeyMap := merase AKeyV.id keyId d.authenticatorKeyMap
            authenticatorMap := merase Prod.fst (AuthOp.verify, keyId)
              (merase Prod.fst (AuthOp.sign, keyId) d.authenticatorMap) } subs)
            keyId false = none := by
          rw [getAuthenticatorKey.eq_def]
          simp only [KeyRing.data]
          rw [hfk]
          simp [elimO]
        rw [getAuthenticator.eq_def]
        simp only [KeyRing.data]
        rw [hc, hgk]
        simp [elimO]

/-- Witness for C5 at a concrete ring: active key and MAC key with
id 3, master with id 0. -/
theorem drop_then_get_not_found_witness :
    (∃ r1, dropActiveCipherKey 0 (KeyRing.mk
        { emptyData 0 (skeyN 0 "") with activeCipherKeyMap := [skeyN 3 "k"] } [])
        3 false = .ok (true, r1) ∧
      getCipher 0 r1 3 false = .ok (none, r1)) ∧
    (∃ r1, dropMACKey 0 (KeyRing.mk
        { emptyData 0 (skeyN 0 "") with macKeyMap := [akeyN 3 "k"] } [])
        3 false = .ok (true, r1) ∧
      getMAC 0 r1 3 false = .ok (none, r1)) := by
  constructor
  · obtain ⟨r1, h1, _h2, h3⟩ := (drop_then_get_not_found
      (KeyRing.mk
        { emptyData 0 (skeyN 0 "") with activeCipherKeyMap := [skeyN 3 "k"] } [])
      3 0 0 false).1 (skeyN 3 "k") (by rfl) (by decide) (by decide) (by decide) (by rfl)
    exact ⟨r1, h1, h3⟩
  · obtain ⟨r1, h1, _h2, h3⟩ := (drop_then_get_not_found
      (KeyRing.mk
        { emptyData 0 (skeyN 0 "") with macKeyMap := [akeyN 3 "k"] } [])
      3 0 0 false).2.1 (akeyN 3 "k") (by rfl) (by decide) (by decide)
    exact ⟨r1, h1, h3⟩

/-! ## C8: `SetMasterCipherKey` -/

/-- C8: for a non-null key passing `VerifyCipherKey`,
`SetMasterCipherKey` swaps the master key and erases exactly the
derived-cipher cache entry keyed by the old master's id; every other
cache entry and every other field of the ring is unchanged. -/
theorem set_master_cipher_key_frame (ops : SuiteOps) (r : KeyRing) (newKey : SKeyV)
    (hv : ops.verifyCipherKey newKey = true)
    (hnodup : (r.data.cipherMap.map Prod.fst).Nodup) :
    ∃ r1, setMasterCipherKey ops r (some newKey) = .ok r1 ∧
      r1.data.masterCipherKey = newKey ∧
      mfind Prod.fst r.data.masterCipherKey.id r1.data.cipherMap = none ∧
      (∀ j, j ≠ r.data.masterCipherKey.id →
        mfind Prod.fst j r1.data.cipherMap = mfind Prod.fst j r.data.cipherMap) ∧
      r1.data.activeCipherKeyMap = r.data.activeCipherKeyMap ∧
      r1.data.retiredCipherKeyMap = r.data.retiredCipherKeyMap ∧
      r1.data.keyExchangeParamsMap = r.data.keyExchangeParamsMap ∧
      r1.data.keyExchangeKeyMap = r.data.keyExchangeKeyMap ∧
      r1.data.authenticatorParamsMap = r.data.authenticatorParamsMap ∧
      r1.data.authenticatorKeyMap = r.data.authenticatorKeyMap ∧
      r1.data.macKeyMap = r.data.macKeyMap ∧
      r1.data.authenticatorMap = r.data.authenticatorMap ∧
      r1.data.macMap = r.data.macMap ∧
      r1.data.keyExchangeMap = r.data.keyExchangeMap ∧
      r1.subrings = r.subrings ∧
      r1.data.id = r.data.id ∧
      r1.data.name = r.data.name ∧
      r1.data.description = r.data.description ∧
      r1.data.cipherSuite = r.data.cipherSuite := by
  obtain ⟨d, subs⟩ := r
  simp only [KeyRing.data, KeyRing.subrings] at hnodup ⊢
  refine ⟨KeyRing.mk { d with
      masterCipherKey := newKey
      cipherMap := merase Prod.fst d.masterCipherKey.id d.cipherMap } subs,
    ?_, rfl, ?_, ?_, rfl, rfl, rfl, rfl, rfl, rfl, rfl, rfl, rfl, rfl, rfl, rfl,
    rfl, rfl, rfl⟩
  · rw [setMasterCipherKey]
    simp only [KeyRing.data, KeyRing.withData, KeyRing.subrings, hv, if_pos]
  · exact mfind_merase_self Prod.fst d.masterCipherKey.id hnodup
  · intro j hj
    exact mfind_merase_ne Prod.fst hj d.cipherMap

/-- Witness for C8 at a concrete ring with one cached cipher under the
old master's id and one under another id. -/
theorem set_master_cipher_key_frame_witness :
    ∃ r1, setMasterCipherKey permissiveSuite (KeyRing.mk
        { emptyData 0 (skeyN 5 "old") with
          cipherMap := [(5, CipherV.mk (skeyN 5 "old")), (7, CipherV.mk (skeyN 7 "x"))] }
        []) (some (skeyN 9 "new")) = .ok r1 ∧
      r1.data.masterCipherKey = skeyN 9 "new" ∧
      mfind Prod.fst 5 r1.data.cipherMap = none ∧
      mfind Prod.fst 7 r1.data.cipherMap = some (7, CipherV.mk (skeyN 7 "x")) := by
  obtain ⟨r1, h1, h2, h3, h4, _⟩ := set_master_cipher_key_frame permissiveSuite
    (KeyRing.mk
      { emptyData 0 (skeyN 5 "old") with
        cipherMap := [(5, CipherV.mk (skeyN 5 "old")), (7, CipherV.mk (skeyN 7 "x"))] }
      []) (skeyN 9 "new") (by rfl) (by decide)
  refine ⟨r1, h1, h2, h3, ?_⟩
  rw [h4 7 (by decide)]
  rfl

/-! ## C7: `SymmetricKey::FromSecretAndSalt` -/

theorem redig_length (md : List Nat → List Nat) (dlen : Nat)
    (hd : ∀ m, (md m).length = dlen) :
    ∀ (n : Nat) (x : List Nat), (redig md n (md x)).length = dlen := by
  intro n
  induction n with
  | zero => intro x; exact hd x
  | succ n ih =>
    intro x
    rw [redig]
    exact ih (md x)

theorem fssRound_length (md : List Nat → List Nat) (dlen : Nat)
    (hd : ∀ m, (md m).length = dlen) (secret salt buffer : List Nat) (count : Nat) :
    (fssRound md secret salt buffer count).length = dlen :=
  redig_length md dlen hd (count - 1) (buffer ++ secret ++ salt)

theorem fssLoop_zero (md : List Nat → List Nat) (secret salt : List Nat)
    (count : Nat) (fuel : Nat) (buffer : List Nat) :
    fssLoop md secret salt count fuel 0 buffer = [] := by
  cases fuel with
  | zero => rfl
  | succ f => rw [fssLoop, if_pos rfl]

theorem fssLoop_eq_spec_take (md : List Nat → List Nat) (dlen : Nat)
    (hd : ∀ m, (md m).length = dlen) (hpos : 0 < dlen)
    (secret salt : List Nat) (count : Nat) :
    ∀ (fuel remaining : Nat) (buffer : List Nat), remaining ≤ fuel →
      fssLoop md secret salt count fuel remaining buffer =
        (specIteratedDigest md secret salt count fuel buffer).take remaining := by
  intro fuel
  induction fuel with
  | zero =>
    intro remaining buffer h
    have h0 : remaining = 0 := Nat.le_zero.1 h
    subst h0
    rfl
  | succ f ih =>
    intro remaining buffer h
    by_cases hr : remaining = 0
    · subst hr
      rw [fssLoop_zero]
      simp
    · rw [fssLoop, if_neg hr, specIteratedDigest]
      simp only
      have hb : (fssRound md secret salt buffer count).length = dlen :=
        fssRound_length md dlen hd secret salt buffer count
      rw [hb, List.take_append_eq_append_take, hb]
      by_cases hle : remaining ≤ dlen
      · have hmin : min remaining dlen = remaining := Nat.min_eq_left hle
        have hsub : remaining - dlen = 0 := Nat.sub_eq_zero_of_le hle
        rw [hmin, hsub, Nat.sub_self, fssLoop_zero]
        simp
      · have hdle : dlen ≤ remaining := Nat.le_of_not_le hle
        have hmin : min remaining dlen = dlen := Nat.min_eq_right hdle
        rw [hmin]
        have htake : (fssRound md secret salt buffer count).take dlen =
            fssRound md secret salt buffer count := by
          rw [← hb]
          exact List.take_length _
        have htake2 : (fssRound md secret salt buffer count).take remaining =
            fssRound md secret salt buffer count :=
          List.take_of_length_le (by rw [hb]; exact hdle)
        rw [htake, htake2]
        have hrec : remaining - dlen ≤ f := by omega
        rw [ih (remaining - dlen) (fssRound md secret salt buffer count) hrec]

theorem specIteratedDigest_length (md : List Nat → List Nat) (dlen : Nat)
    (hd : ∀ m, (md m).length = dlen) (secret salt : List Nat) (count : Nat) :
    ∀ (n : Nat) (prev : List Nat),
      (specIteratedDigest md secret salt count n prev).length = n * dlen := by
  intro n
  induction n with
  | zero =>
    intro prev
    simp [specIteratedDigest]
  | succ k ih =>
    intro prev
    rw [specIteratedDigest]
    simp only [List.length_append]
    rw [fssRound_length md dlen hd, ih]
    ring

/-- C7: for positive key length, non-empty secret, non-null digest and
positive iteration count, `FromSecretAndSalt` produces exactly
`keyLength` bytes, equal to the truncated stream of the spec's iterated
digest rounds (each round digesting the previous round's output, the
secret, and the salt, then re-digesting `count - 1` further times,
contributing `min (remaining, digestLength)` bytes); a zero key length,
a null or empty secret, a null digest, or a zero count fails with
`EINVAL`. -/
theorem from_secret_and_salt_spec (md : List Nat → List Nat) (dlen : Nat)
    (hd : ∀ m, (md m).length = dlen) (hpos : 0 < dlen)
    (keyLength : Nat) (secret salt : List Nat) (count : Nat) :
    (fromSecretAndSalt (some md) keyLength secret salt count = none ↔
      (keyLength = 0 ∨ secret = [] ∨ count = 0)) ∧
    fromSecretAndSalt none keyLength secret salt count = none ∧
    ∀ k, fromSecretAndSalt (some md) keyLength secret salt count = some k →
      k = (specIteratedDigest md secret salt count keyLength []).take keyLength ∧
      k.length = keyLength := by
  refine ⟨?_, rfl, ?_⟩
  · rw [fromSecretAndSalt]
    constructor
    · intro h
      by_contra hcon
      push_neg at hcon
      obtain ⟨ha, hb, hc⟩ := hcon
      rw [if_pos ?_] at h
      · exact Option.noConfusion h
      · have hs : ¬ secret.isEmpty = true := by
          simp only [List.isEmpty_iff]
          exact hb
        simp [Nat.pos_of_ne_zero ha, Nat.pos_of_ne_zero hc, hs]
    · intro h
      rw [if_neg ?_]
      · intro hcc
        simp only [Bool.and_eq_true, decide_eq_true_eq, Bool.not_eq_eq_eq_not,
          Bool.not_true, List.isEmpty_eq_false] at hcc
        obtain ⟨⟨hk0, hs0⟩, hc0⟩ := hcc
        rcases h with h | h | h
        · omega
        · exact hs0 h
        · omega
  · intro k hk
    rw [fromSecretAndSalt] at hk
    by_cases hcond : keyLength > 0 ∧ ¬secret.isEmpty ∧ count > 0
    · obtain ⟨h1, h2, h3⟩ := hcond
      rw [if_pos (by simp [h1, h2, h3])] at hk
      have hloop := fssLoop_eq_spec_take md dlen hd hpos secret salt count
        keyLength keyLength [] (le_refl keyLength)
      have hkk : fssLoop md secret salt count keyLength keyLength [] = k :=
        Option.some.inj hk
      refine ⟨by rw [← hkk, hloop], ?_⟩
      rw [← hkk, hloop, List.length_take,
        specIteratedDigest_length md dlen hd secret salt count]
      have hmul : keyLength ≤ keyLength * dlen := Nat.le_mul_of_pos_right keyLength hpos
      omega
    · exfalso
      rw [if_neg ?_] at hk
      · exact Option.noConfusion hk
      · intro hcc
        simp only [Bool.and_eq_true, decide_eq_true_eq, Bool.not_eq_eq_eq_not,
          Bool.not_true] at hcc
        obtain ⟨⟨hk0, hs0⟩, hc0⟩ := hcc
        exact hcond ⟨hk0, by simp [hs0], hc0⟩

/-- Witness for C7 at a one-byte digest: key length 3, secret `[1]`,
no salt, one iteration. -/
theorem from_secret_and_salt_spec_witness :
    fromSecretAndSalt (some fun _ => [7]) 3 [1] [] 1 = some [7, 7, 7] ∧
    ([7, 7, 7] : List Nat) =
      (specIteratedDigest (fun _ => [7]) [1] [] 1 3 []).take 3 ∧
    ([7, 7, 7] : List Nat).length = 3 := by
  have h := (from_secret_and_salt_spec (fun _ => [7]) 1 (fun _ => rfl)
    (by decide) 3 [1] [] 1).2.2 [7, 7, 7] (by rfl)
  exact ⟨by rfl, h.1, h.2⟩

/-! ## C10: `HMAC::CreateKey` -/

/-- C10: `HMAC::CreateKey` rejects a null or empty secret and a null
digest with `EINVAL`; otherwise it derives the MAC secret through
`SymmetricKey::FromSecretAndSalt` called with key length exactly
`EVP_MD_size (md)` (the digest's output length `dlen`), so any secret
it installs has exactly `dlen` bytes. -/
theorem hmac_create_key_spec (md : List Nat → List Nat) (dlen : Nat)
    (hd : ∀ m, (md m).length = dlen) (hpos : 0 < dlen)
    (secret salt : List Nat) (count : Nat) :
    hmacCreateKey none dlen secret salt count = none ∧
    (secret = [] → hmacCreateKey (some md) dlen secret salt count = none) ∧
    (secret ≠ [] → hmacCreateKey (some md) dlen secret salt count =
      fromSecretAndSalt (some md) dlen secret salt count) ∧
    ∀ k, hmacCreateKey (some md) dlen secret salt count = some k →
      k.length = dlen := by
  refine ⟨rfl, ?_, ?_, ?_⟩
  · intro h
    subst h
    rfl
  · intro h
    rw [hmacCreateKey, if_pos (by simp [h])]
  · intro k hk
    rw [hmacCreateKey] at hk
    by_cases h : secret.isEmpty
    · rw [if_neg (by simp [h])] at hk
      exact Option.noConfusion hk
    · rw [if_pos (by simp [h])] at hk
      exact ((from_secret_and_salt_spec md dlen hd hpos dlen secret salt count).2.2
        k hk).2

/-- Witness for C10 at a one-byte digest. -/
theorem hmac_create_key_spec_witness :
    hmacCreateKey (some fun _ => [9]) 1 [2] [] 1 = some [9] ∧
    ([9] : List Nat).length = 1 := by
  refine ⟨by rfl, ?_⟩
  exact (hmac_create_key_spec (fun _ => [9]) 1 (fun _ => rfl) (by decide)
    [2] [] 1).2.2.2 [9] (by rfl)

/-- Witness for C9 at a concrete private Ed25519 key and a public
one. -/
theorem ed25519_signer_ctor_spec_witness :
    ed25519SignerMake (some ⟨true, ed25519KeyType⟩) = .ok ⟨true, ed25519KeyType⟩ ∧
    ed25519SignerMake (some ⟨false, ed25519KeyType⟩) = .error () := by
  constructor
  · exact (ed25519_signer_ctor_spec (some ⟨true, ed25519KeyType⟩)).2
      ⟨true, ed25519KeyType⟩ rfl rfl rfl
  · exact (ed25519_signer_ctor_spec (some ⟨false, ed25519KeyType⟩)).1.mpr
      (Or.inr ⟨⟨false, ed25519KeyType⟩, rfl, Or.inl rfl⟩)

/-! ## C2: `AddSubring` and acyclicity -/

theorem mfind_map_congr {κ α : Type} [DecidableEq κ] (key : α → κ) (f : α → α)
    (hf : ∀ x, key (f x) = key x) (k : κ) (l : List α) :
    mfind key k (l.map f) = (mfind key k l).map f := by
  induction l with
  | nil => simp [mfind]
  | cons a t ih =>
    by_cases ha : key a = k
    · simp [mfind, hf, ha]
    · simp [mfind, hf, ha, ih]

theorem hchildren_set_ne (h : Heap) (r0 : Nat) (cs : List Nat) (a : Nat)
    (hne : a ≠ r0) : hchildren (hsetChildren h r0 cs) a = hchildren h a := by
  rw [hchildren, hchildren, hsetChildren,
    mfind_map_congr Prod.fst _ (fun x => by split <;> rfl)]
  rcases hf : mfind Prod.fst a h with _ | e
  · rfl
  · have he : e.1 = a := mfind_some_key Prod.fst hf
    simp only [Option.map]
    rw [if_neg (by rw [he]; exact hne)]

theorem hchildren_set_none (h : Heap) (r0 : Nat) (cs : List Nat)
    (hf : mfind Prod.fst r0 h = none) (a : Nat) :
    hchildren (hsetChildren h r0 cs) a = hchildren h a := by
  by_cases ha : a = r0
  · subst ha
    rw [hchildren, hchildren, hsetChildren,
      mfind_map_congr Prod.fst _ (fun x => by split <;> rfl), hf]
    rfl
  · exact hchildren_set_ne h r0 cs a ha

theorem hchildren_set_self (h : Heap) (r0 : Nat) (cs : List Nat) (e : Nat × Nat × List Nat)
    (hf : mfind Prod.fst r0 h = some e) :
    hchildren (hsetChildren h r0 cs) r0 = cs := by
  rw [hchildren, hsetChildren,
    mfind_map_congr Prod.fst _ (fun x => by split <;> rfl), hf]
  have he : e.1 = r0 := mfind_some_key Prod.fst hf
  simp only [Option.map]
  rw [if_pos he]
  rfl

theorem hreach_congr {h1 h2 : Heap} (hc : ∀ a, hchildren h1 a = hchildren h2 a)
    {x y : Nat} (hr : HReach h1 x y) : HReach h2 x y := by
  induction hr with
  | single hab => exact HReach.single (hc _ ▸ hab)
  | cons hab _ ih => exact HReach.cons (hc _ ▸ hab) ih

theorem hreach_trans {h : Heap} {a b c : Nat} (h1 : HReach h a b)
    (h2 : HReach h b c) : HReach h a c := by
  induction h1 with
  | single hab => exact HReach.cons hab h2
  | cons hab _ ih => exact HReach.cons hab (ih h2)

/-- C2 counterexample: one fresh ring object (reference 0, id 0, no
sub-rings); a single `AddSubring` call passing the ring itself
succeeds (it checks only for a duplicate id) and afterwards the ring
reaches itself through sub-ring traversal — the claimed invariant is
not maintained by the code. -/
theorem add_subring_cycle_counterexample :
    (haddSubring [(0, 0, [])] 0 0).2 = true ∧
    HReach (haddSubring [(0, 0, [])] 0 0).1 0 0 := by
  constructor
  · rfl
  · exact HReach.single (by decide)

/-- C2 (amended): `AddSubring` performs no cycle check, so acyclicity
is not an invariant of the operations themselves; it is preserved
exactly under the caller-side discipline the spec's tree shape assumes:
adding `child` to `parent` where `child` is distinct from `parent` and
does not already reach `parent` keeps the sub-ring graph acyclic. -/
theorem add_subring_acyclic_preservation (h : Heap) (parent child : Nat)
    (hacyc : Acyclic h) (hnr : ¬ HReach h child parent) (hne : child ≠ parent) :
    Acyclic (haddSubring h parent child).1 := by
  rw [haddSubring]
  by_cases hdup : ((hchildren h parent).any fun c => hid h c = hid h child) = true
  · rw [if_pos hdup]
    exact hacyc
  · rw [if_neg hdup]
    simp only
    rcases hpar : mfind Prod.fst parent h with _ | e
    · intro z hz
      exact hacyc z (hreach_congr (hchildren_set_none h parent _ hpar) hz)
    · have hset : hchildren (hsetChildren h parent (hchildren h parent ++ [child]))
          parent = hchildren h parent ++ [child] :=
        hchildren_set_self h parent _ e hpar
      have hedge : ∀ a b, b ∈ hchildren
          (hsetChildren h parent (hchildren h parent ++ [child])) a →
          b ∈ hchildren h a ∨ (a = parent ∧ b = child) := by
        intro a b hab
        by_cases ha : a = parent
        · subst ha
          rw [hset] at hab
          rcases List.mem_append.1 hab with hm | hm
          · exact Or.inl hm
          · exact Or.inr ⟨rfl, List.mem_singleton.1 hm⟩
        · rw [hchildren_set_ne h parent _ a ha] at hab
          exact Or.inl hab
      have hkey : ∀ x y,
          HReach (hsetChildren h parent (hchildren h parent ++ [child])) x y →
          HReach h x y ∨
            ((x = parent ∨ HReach h x parent) ∧
             (child = y ∨ HReach (hsetChildren h parent
               (hchildren h parent ++ [child])) child y)) := by
        intro x y hr
        induction hr with
        | single hab =>
          rcases hedge _ _ hab with hm | ⟨hxp, hbc⟩
          · exact Or.inl (HReach.single hm)
          · exact Or.inr ⟨Or.inl hxp, Or.inl hbc.symm⟩
        | cons hab hbc ih =>
          rename_i a b c
          rcases hedge _ _ hab with hm | ⟨hxp, hbce⟩
          · rcases ih with hp | ⟨hrp, hcy⟩
            · exact Or.inl (HReach.cons hm hp)
            · refine Or.inr ⟨?_, hcy⟩
              rcases hrp with hbp | hbp
              · exact Or.inr (HReach.single (hbp ▸ hm))
              · exact Or.inr (HReach.cons hm hbp)
          · exact Or.inr ⟨Or.inl hxp, Or.inr (hbce ▸ hbc)⟩
      intro z hz
      rcases hkey z z hz with hp | ⟨hzp, hcz⟩
      · exact hacyc z hp
      · rcases hcz with hcz | hcz
        · subst hcz
          rcases hzp with hzp | hzp
          · exact hne hzp
          · exact hnr hzp
        · rcases hkey child z hcz with hp | ⟨hcp, _⟩
          · rcases hzp with hzp | hzp
            · exact hnr (hzp ▸ hp)
            · exact hnr (hreach_trans hp hzp)
          · rcases hcp with hcp | hcp
            · exact hne hcp
            · exact hnr hcp

/-- Witness for C2's amended theorem on a two-object heap with no
edges. -/
theorem add_subring_acyclic_preservation_witness :
    (haddSubring [(0, 0, []), (1, 1, [])] 0 1).2 = true ∧
    Acyclic (haddSubring [(0, 0, []), (1, 1, [])] 0 1).1 := by
  have hedge : ∀ a, hchildren [(0, 0, ([] : List Nat)), (1, 1, [])] a = [] := by
    intro a
    rw [hchildren]
    rcases hf : mfind Prod.fst a [(0, 0, ([] : List Nat)), (1, 1, [])] with _ | e
    · rfl
    · have := mfind_mem Prod.fst hf
      simp only [List.mem_cons, List.mem_singleton] at this
      rcases this with h1 | h1 | h1
      · simp [h1]
      · simp [h1]
      · exact absurd h1 (by simp)
  have hno : ∀ x y, ¬ HReach [(0, 0, ([] : List Nat)), (1, 1, [])] x y := by
    intro x y hr
    induction hr with
    | single hab =>
      rw [hedge] at hab
      exact absurd hab (List.not_mem_nil _)
    | cons hab _ _ =>
      rw [hedge] at hab
      exact absurd hab (List.not_mem_nil _)
  constructor
  · rfl
  · exact add_subring_acyclic_preservation _ 0 1 (fun r => hno r r) (hno 1 0)
      (by decide)

/-! ## C3: order of the recursive descent -/

theorem addSubrings_nil (r : KeyRing) : addSubrings r [] = r := rfl

theorem addSubrings_cons (r : KeyRing) (s : KeyRing) (t : List KeyRing) :
    addSubrings r (s :: t) =
      addSubrings (r.withSubrings (minsert KeyRing.ringId natLt s r.subrings).1) t := by
  rw [addSubrings, List.foldl_cons, addSubring]
  rfl

theorem addSubrings_data (L : List KeyRing) : ∀ r : KeyRing,
    (addSubrings r L).data = r.data := by
  induction L with
  | nil => intro r; rfl
  | cons s t ih =>
    intro r
    rw [addSubrings_cons, ih]
    cases r
    rfl

theorem addSubrings_subrings (L : List KeyRing) : ∀ r : KeyRing,
    (addSubrings r L).subrings =
      L.foldl (fun m s => (minsert KeyRing.ringId natLt s m).1) r.subrings := by
  induction L with
  | nil => intro r; rfl
  | cons s t ih =>
    intro r
    rw [addSubrings_cons, ih, List.foldl_cons]
    cases r
    rfl

theorem fold_minsert_sorted_perm {α : Type} (key : α → Nat) (L : List α) :
    ∀ m : List α, sortedKeysB key natLt m = true →
      (m.map key ++ L.map key).Nodup →
      sortedKeysB key natLt
        (L.foldl (fun acc v => (minsert key natLt v acc).1) m) = true ∧
      (L.foldl (fun acc v => (minsert key natLt v acc).1) m).Perm (m ++ L) := by
  induction L with
  | nil =>
    intro m hs _
    simp [hs]
  | cons s t ih =>
    intro m hs hnd
    have hfresh : key s ∉ m.map key := by
      simp only [List.map_cons, List.nodup_append] at hnd
      intro hmem
      exact hnd.2.2 hmem (List.mem_cons_self _ _)
    have hnone : mfind key (key s) m = none := (mfind_eq_none_iff key (key s) m).2 hfresh
    have hsnd : (minsert key natLt s m).2 = true := minsert_snd_true_of_absent key hnone
    have hsorted : sortedKeysB key natLt (minsert key natLt s m).1 = true :=
      minsert_sorted_of_absent key hs hnone
    have hperm : (minsert key natLt s m).1.Perm (s :: m) := minsert_perm key natLt hsnd
    have hndrec : ((minsert key natLt s m).1.map key ++ t.map key).Nodup := by
      have hp : ((minsert key natLt s m).1.map key ++ t.map key).Perm
          (m.map key ++ (key s :: t.map key)) := by
        refine List.Perm.trans (List.Perm.append_right (t.map key) (hperm.map key)) ?_
        exact List.perm_middle.symm
      refine hp.nodup_iff.2 ?_
      simpa using hnd
    rw [List.foldl_cons]
    obtain ⟨h1, h2⟩ := ih (minsert key natLt s m).1 hsorted hndrec
    refine ⟨h1, ?_⟩
    refine h2.trans ?_
    refine List.Perm.trans (List.Perm.append_right t hperm) ?_
    exact List.perm_middle.symm

/-- C3 counterexample: sub-ring `A` (ring id 2, holding cipher key
`⟨10, "A"⟩`) is inserted first, sub-ring `B` (ring id 1, holding the
distinct key `⟨10, "B"⟩`) second.  The claim predicts the recursive
lookup returns the hit from `A`, the first-inserted sub-ring (the
spec-ordered reference `getCipherKeyInsertionOrder` does); the code
walks the id-sorted `std::map` and returns the hit from `B`. -/
theorem recursive_lookup_order_counterexample :
    getCipherKey 1
      (addSubrings (emptyRing 0 (skeyN 0 ""))
        [KeyRing.mk { emptyData 2 (skeyN 0 "") with
           activeCipherKeyMap := [skeyN 10 "A"] } [],
         KeyRing.mk { emptyData 1 (skeyN 0 "") with
           activeCipherKeyMap := [skeyN 10 "B"] } []])
      10 true = some (skeyN 10 "B") ∧
    getCipherKeyInsertionOrder 1
      (addSubrings (emptyRing 0 (skeyN 0 ""))
        [KeyRing.mk { emptyData 2 (skeyN 0 "") with
           activeCipherKeyMap := [skeyN 10 "A"] } [],
         KeyRing.mk { emptyData 1 (skeyN 0 "") with
           activeCipherKeyMap := [skeyN 10 "B"] } []])
      [KeyRing.mk { emptyData 2 (skeyN 0 "") with
         activeCipherKeyMap := [skeyN 10 "A"] } [],
       KeyRing.mk { emptyData 1 (skeyN 0 "") with
         activeCipherKeyMap := [skeyN 10 "B"] } []]
      10 = some (skeyN 10 "A") ∧
    skeyN 10 "B" ≠ skeyN 10 "A" := by
  refine ⟨by rfl, by rfl, by decide⟩

/-- C3 (amended): a recursive `GetCipherKey` that misses locally
examines the sub-rings in ascending ring-id order — the `std::map`
iteration order — not in insertion order: after any sequence of
`AddSubring` calls the sub-ring map is an id-sorted permutation of the
inserted rings, and the result is the first hit over that id-sorted
sequence. -/
theorem recursive_lookup_sorted_order (r0 : KeyRing) (L : List KeyRing)
    (keyId : Nat) (f : Nat)
    (hsub0 : r0.subrings = [])
    (hnd : (L.map KeyRing.ringId).Nodup)
    (hm : r0.data.masterCipherKey.id ≠ keyId)
    (ha : mfind SKeyV.id keyId r0.data.activeCipherKeyMap = none)
    (hr : mfind SKeyV.id keyId r0.data.retiredCipherKeyMap = none) :
    sortedKeysB KeyRing.ringId natLt (addSubrings r0 L).subrings = true ∧
    (addSubrings r0 L).subrings.Perm L ∧
    getCipherKey (f + 1) (addSubrings r0 L) keyId true =
      (addSubrings r0 L).subrings.findSome?
        (fun s => getCipherKey f s keyId true) := by
  have hdata : (addSubrings r0 L).data = r0.data := addSubrings_data L r0
  have hsubs := addSubrings_subrings L r0
  rw [hsub0] at hsubs
  have hfold := fold_minsert_sorted_perm KeyRing.ringId L [] rfl (by simpa using hnd)
  refine ⟨by rw [hsubs]; exact hfold.1, by rw [hsubs]; simpa using hfold.2, ?_⟩
  rw [getCipherKey.eq_def, hdata]
  rw [if_neg hm, ha, hr]
  simp [elimO]

/-- Witness for C3's amended theorem: two sub-rings inserted in
descending id order end up searched in ascending id order. -/
theorem recursive_lookup_sorted_order_witness :
    sortedKeysB KeyRing.ringId natLt
      (addSubrings (emptyRing 0 (skeyN 0 ""))
        [emptyRing 2 (skeyN 0 ""), emptyRing 1 (skeyN 0 "")]).subrings = true ∧
    (addSubrings (emptyRing 0 (skeyN 0 ""))
      [emptyRing 2 (skeyN 0 ""), emptyRing 1 (skeyN 0 "")]).subrings.Perm
      [emptyRing 2 (skeyN 0 ""), emptyRing 1 (skeyN 0 "")] ∧
    getCipherKey 1
      (addSubrings (emptyRing 0 (skeyN 0 ""))
        [emptyRing 2 (skeyN 0 ""), emptyRing 1 (skeyN 0 "")]) 10 true =
      (addSubrings (emptyRing 0 (skeyN 0 ""))
        [emptyRing 2 (skeyN 0 ""), emptyRing 1 (skeyN 0 "")]).subrings.findSome?
        (fun s => getCipherKey 0 s 10 true) := by
  exact recursive_lookup_sorted_order (emptyRing 0 (skeyN 0 ""))
    [emptyRing 2 (skeyN 0 ""), emptyRing 1 (skeyN 0 "")] 10 0
    (by rfl) (by decide) (by decide) (by rfl) (by rfl)

/-! ## C1: serialization round-trip lemmas -/

theorem parseHeader_serialize (i : Nat) (nm ds : String) (rest : List Tok) :
    parseHeader (serializeHeader i nm ds ++ rest) = some ((i, nm, ds), rest) := by
  simp [serializeHeader, parseHeader, readId, readStr, Option.bind]

theorem parseSKey_serialize (k : SKeyV) (hk : k.data.length < 4294967296)
    (rest : List Tok) : parseSKey (serializeSKey k ++ rest) = some (k, rest) := by
  rw [serializeSKey, List.append_assoc]
  rw [parseSKey, parseHeader_serialize]
  simp [readU32, readBytes, Option.bind, Nat.mod_eq_of_lt hk]

theorem parseAKey_serialize (k : AKeyV) (rest : List Tok) :
    parseAKey (serializeAKey k ++ rest) = some (k, rest) := by
  rw [serializeAKey, List.append_assoc]
  rw [parseAKey, parseHeader_serialize]
  simp [readBool, readI32, readBytes, Option.bind]

theorem parseParams_serialize (p : ParamsV) (hp : p.payload.length < 4294967296)
    (rest : List Tok) : parseParams (serializeParams p ++ rest) = some (p, rest) := by
  rw [serializeParams, List.append_assoc]
  rw [parseParams, parseHeader_serialize]
  simp [readU32, readBytes, Option.bind, Nat.mod_eq_of_lt hp]

theorem readItems_append {α β : Type} (p : List Tok → Option (β × List Tok))
    (ser : α → List Tok) (g : α → β) (l : List α)
    (h : ∀ a ∈ l, ∀ rest, p (ser a ++ rest) = some (g a, rest)) (rest : List Tok) :
    readItems p l.length ((l.map ser).flatten ++ rest) = some (l.map g, rest) := by
  induction l generalizing rest with
  | nil => simp [readItems]
  | cons a t ih =>
    rw [List.map_cons, List.length_cons, List.map_cons, List.flatten_cons,
      List.append_assoc, readItems]
    rw [h a (List.mem_cons_self a t)]
    simp only [Option.bind_eq_bind, Option.some_bind]
    rw [ih (fun b hb => h b (List.mem_cons_of_mem a hb)) rest]
    simp

theorem minsert_append_of_gt {α : Type} (key : α → Nat) (v : α) (acc : List α)
    (hall : ∀ a ∈ acc, key a < key v) :
    minsert key natLt v acc = (acc ++ [v], true) := by
  induction acc with
  | nil => rfl
  | cons a t ih =>
    have hav : key a < key v := hall a (List.mem_cons_self a t)
    rw [minsert]
    rw [if_neg (by simp [natLt]; omega), if_neg (by omega)]
    rw [ih (fun b hb => hall b (List.mem_cons_of_mem a hb))]
    simp

theorem sorted_append_singleton {α : Type} (key : α → Nat) (v : α) (acc : List α)
    (hs : sortedKeysB key natLt acc = true) (hall : ∀ a ∈ acc, key a < key v) :
    sortedKeysB key natLt (acc ++ [v]) = true := by
  induction acc with
  | nil => rfl
  | cons a t ih =>
    obtain ⟨ht, hlt⟩ := sortedKeysB_cons key hs
    rw [List.cons_append]
    refine sortedKeysB_cons_of key
      (ih ht (fun b hb => hall b (List.mem_cons_of_mem a hb))) ?_
    intro b hb
    rcases List.mem_append.1 hb with hb | hb
    · exact hlt b hb
    · rw [List.mem_singleton.1 hb]
      exact hall a (List.mem_cons_self a t)

theorem rebuildMap_sorted_aux {α : Type} (key : α → Nat) (l : List α) :
    ∀ acc : List α, sortedKeysB key natLt acc = true →
      sortedKeysB key natLt l = true →
      (∀ b ∈ l, ∀ a ∈ acc, key a < key b) →
      rebuildMap key acc l = some (acc ++ l) := by
  induction l with
  | nil =>
    intro acc _ _ _
    simp [rebuildMap]
  | cons b t ih =>
    intro acc hacc hbt hall
    obtain ⟨ht, hlt⟩ := sortedKeysB_cons key hbt
    have hgt : ∀ a ∈ acc, key a < key b :=
      fun a ha => hall b (List.mem_cons_self b t) a ha
    rw [rebuildMap, minsert_append_of_gt key b acc hgt]
    simp only
    rw [ih (acc ++ [b])
      (sorted_append_singleton key b acc hacc hgt) ht ?_]
    · simp
    · intro c hc a ha
      rcases List.mem_append.1 ha with ha | ha
      · exact lt_trans (hall b (List.mem_cons_self b t) a ha) (hlt c hc)
      · rw [List.mem_singleton.1 ha]
        exact hlt c hc

theorem rebuildMap_sorted {α : Type} (key : α → Nat) (l : List α)
    (hs : sortedKeysB key natLt l = true) : rebuildMap key [] l = some l := by
  have h := rebuildMap_sorted_aux key l [] rfl hs (by simp)
  simpa using h

theorem parseCat_serializeCat {α : Type} (p : List Tok → Option (α × List Tok))
    (ser : α → List Tok) (key : α → Nat) (l : List α)
    (hitem : ∀ a ∈ l, ∀ rest, p (ser a ++ rest) = some (a, rest))
    (hs : sortedKeysB key natLt l = true) (hlen : l.length < 4294967296)
    (rest : List Tok) :
    parseCat p key (serializeCat ser l ++ rest) = some (l, rest) := by
  rw [serializeCat, parseCat]
  simp only [List.cons_append]
  rw [show readU32 (Tok.u32 (l.length % 4294967296) ::
      ((l.map ser).flatten ++ rest)) =
    some (l.length % 4294967296, (l.map ser).flatten ++ rest) from rfl]
  simp only [Option.bind_eq_bind, Option.some_bind, Nat.mod_eq_of_lt hlen]
  have hread := readItems_append p ser id l (by simpa using hitem) rest
  simp only [List.map_id] at hread
  rw [hread]
  simp only [Option.bind_eq_bind, Option.some_bind]
  rw [rebuildMap_sorted key l hs]
  simp

theorem parseRingPrefix_serialize (fuel : Nat) (d : RingData) (subs : List KeyRing)
    (hw : wfData d = true) (rest : List Tok) :
    parseRingPrefix (serializeRing fuel (KeyRing.mk d subs) ++ rest) =
      some ({ d with
          cipherMap := []
          authenticatorMap := []
          macMap := []
          keyExchangeMap := [] },
        subs.length % 4294967296,
        (match fuel with
         | 0 => ([] : List Tok)
         | f + 1 => (subs.map (serializeRing f)).flatten) ++ rest) := by
  simp only [wfData, Bool.and_eq_true, and_assoc, u32ok, decide_eq_true_eq,
    List.all_eq_true] at hw
  obtain ⟨h1, h2, h3, h4, h5, h6, h7, h8, h9, h10, h11, h12, h13, h14, h15,
    h16, h17, h18, h19⟩ := hw
  rw [serializeRing.eq_def]
  simp only [KeyRing.data, KeyRing.subrings, List.append_assoc, List.cons_append,
    List.singleton_append]
  rw [parseRingPrefix, parseHeader_serialize]
  simp only [Option.bind_eq_bind, Option.some_bind, readStr, List.nil_append]
  rw [parseCat_serializeCat parseParams serializeParams ParamsV.id
    d.keyExchangeParamsMap
    (fun a ha rest2 => parseParams_serialize a (by simpa using h18 a ha) rest2) h1
    (by simpa using h8)]
  simp only [Option.some_bind]
  rw [parseCat_serializeCat parseAKey serializeAKey AKeyV.id
    d.keyExchangeKeyMap
    (fun a _ rest2 => parseAKey_serialize a rest2) h2 (by simpa using h9)]
  simp only [Option.some_bind]
  rw [parseCat_serializeCat parseParams serializeParams ParamsV.id
    d.authenticatorParamsMap
    (fun a ha rest2 => parseParams_serialize a (by simpa using h19 a ha) rest2) h3
    (by simpa using h10)]
  simp only [Option.some_bind]
  rw [parseCat_serializeCat parseAKey serializeAKey AKeyV.id
    d.authenticatorKeyMap
    (fun a _ rest2 => parseAKey_serialize a rest2) h4 (by simpa using h11)]
  simp only [Option.some_bind]
  rw [parseSKey_serialize d.masterCipherKey (by simpa using h15)]
  simp only [Option.some_bind]
  rw [parseCat_serializeCat parseSKey serializeSKey SKeyV.id
    d.activeCipherKeyMap
    (fun a ha rest2 => parseSKey_serialize a (by simpa using h16 a ha) rest2) h5
    (by simpa using h12)]
  simp only [Option.some_bind]
  rw [parseCat_serializeCat parseSKey serializeSKey SKeyV.id
    d.retiredCipherKeyMap
    (fun a ha rest2 => parseSKey_serialize a (by simpa using h17 a ha) rest2) h6
    (by simpa using h13)]
  simp only [Option.some_bind]
  rw [parseCat_serializeCat parseAKey serializeAKey AKeyV.id
    d.macKeyMap
    (fun a _ rest2 => parseAKey_serialize a rest2) h7 (by simpa using h14)]
  simp only [Option.some_bind, readU32]

theorem ringId_stripCaches (f : Nat) (s : KeyRing) :
    KeyRing.ringId (stripCaches f s) = KeyRing.ringId s := by
  rw [stripCaches.eq_def]
  rfl

theorem sortedKeysB_map {α : Type} (key : α → Nat) (g : α → α)
    (hg : ∀ a, key (g a) = key a) (l : List α) :
    sortedKeysB key natLt (l.map g) = sortedKeysB key natLt l := by
  induction l with
  | nil => rfl
  | cons a t ih =>
    cases t with
    | nil => rfl
    | cons b t2 =>
      simp only [List.map_cons] at ih ⊢
      rw [sortedKeysB, sortedKeysB, hg, hg, ih]

theorem deserializeRing_serializeRing : ∀ (fuel : Nat) (r : KeyRing),
    wfB fuel r = true → ∀ rest : List Tok,
      deserializeRing fuel (serializeRing fuel r ++ rest) =
        some (stripCaches fuel r, rest) := by
  intro fuel
  induction fuel with
  | zero =>
    intro r hw rest
    obtain ⟨d, subs⟩ := r
    simp only [wfB, Bool.and_eq_true, and_assoc, u32ok, decide_eq_true_eq,
      KeyRing.data, KeyRing.subrings] at hw
    obtain ⟨hwd, hsort, hlen, hempty⟩ := hw
    have hnil : subs = [] := by
      simpa using hempty
    subst hnil
    rw [deserializeRing.eq_def, parseRingPrefix_serialize 0 d [] hwd rest]
    rw [stripCaches.eq_def]
    simp [elimO, KeyRing.data, KeyRing.subrings]
  | succ f ih =>
    intro r hw rest
    obtain ⟨d, subs⟩ := r
    simp only [wfB, Bool.and_eq_true, and_assoc, u32ok, decide_eq_true_eq,
      KeyRing.data, KeyRing.subrings, List.all_eq_true] at hw
    obtain ⟨hwd, hsort, hlen, hall⟩ := hw
    rw [deserializeRing.eq_def, parseRingPrefix_serialize (f + 1) d subs hwd rest]
    simp only [elimO]
    rw [Nat.mod_eq_of_lt hlen]
    rw [readItems_append (deserializeRing f) (serializeRing f) (stripCaches f) subs
      (fun s hs rest2 => ih s (hall s hs) rest2) rest]
    simp only [elimO]
    have hsorted2 : sortedKeysB KeyRing.ringId natLt (subs.map (stripCaches f)) = true := by
      rw [sortedKeysB_map KeyRing.ringId (stripCaches f) (ringId_stripCaches f)]
      exact hsort
    rw [rebuildMap_sorted KeyRing.ringId (subs.map (stripCaches f)) hsorted2]
    rw [stripCaches.eq_def]
    simp [KeyRing.data, KeyRing.subrings]

/-- C1: decoding the byte stream produced by `KeyRing::Serialize`
(suite, the four asymmetric categories, the master key, active keys,
retired keys, MAC keys, sub-rings, each category count-prefixed)
rebuilds a ring with the same id, cipher suite, master cipher key, and
category maps, recursively for sub-rings; only the (unserialized)
derived-object caches come back empty, which is what `stripCaches`
expresses. -/
theorem ring_serialize_roundtrip (fuel : Nat) (r : KeyRing)
    (h : wfB fuel r = true) (rest : List Tok) :
    deserializeRing fuel (serializeRing fuel r ++ rest) =
      some (stripCaches fuel r, rest) ∧
    ∀ (f1 : Nat) (r1 : KeyRing), wfB f1 r1 = true →
      SameCategories (stripCaches f1 r1) r1 := by
  refine ⟨deserializeRing_serializeRing fuel r h rest, ?_⟩
  intro f1 r1 hw1
  obtain ⟨d, subs⟩ := r1
  rw [stripCaches.eq_def]
  refine ⟨rfl, rfl, rfl, rfl, rfl, rfl, rfl, rfl, rfl, rfl, ?_⟩
  cases f1 with
  | zero =>
    simp only [wfB, Bool.and_eq_true, and_assoc, KeyRing.data,
      KeyRing.subrings] at hw1
    obtain ⟨_, _, _, hrest⟩ := hw1
    have hnil : subs = [] := by
      simpa using hrest
    subst hnil
    rfl
  | succ f2 =>
    simp only [KeyRing.subrings]
    rw [List.map_map]
    have hcomp : (KeyRing.ringId ∘ stripCaches f2) = KeyRing.ringId :=
      funext fun s => ringId_stripCaches f2 s
    rw [hcomp]

/-- Witness for C1 at a concrete two-level ring with a populated cache
(which comes back empty after the round trip). -/
theorem ring_serialize_roundtrip_witness :
    deserializeRing 1
      (serializeRing 1 (KeyRing.mk
        { emptyData 0 (skeyN 0 "m") with
          activeCipherKeyMap := [skeyN 3 "a"]
          macKeyMap := [akeyN 4 "k"]
          keyExchangeParamsMap := [paramsN 6 "p"]
          cipherMap := [(3, CipherV.mk (skeyN 3 "a"))] }
        [emptyRing 1 (skeyN 2 "s")]) ++ []) =
      some (stripCaches 1 (KeyRing.mk
        { emptyData 0 (skeyN 0 "m") with
          activeCipherKeyMap := [skeyN 3 "a"]
          macKeyMap := [akeyN 4 "k"]
          keyExchangeParamsMap := [paramsN 6 "p"]
          cipherMap := [(3, CipherV.mk (skeyN 3 "a"))] }
        [emptyRing 1 (skeyN 2 "s")]), []) ∧
    SameCategories
      (stripCaches 1 (KeyRing.mk
        { emptyData 0 (skeyN 0 "m") with
          activeCipherKeyMap := [skeyN 3 "a"]
          macKeyMap := [akeyN 4 "k"]
          keyExchangeParamsMap := [paramsN 6 "p"]
          cipherMap := [(3, CipherV.mk (skeyN 3 "a"))] }
        [emptyRing 1 (skeyN 2 "s")]))
      (KeyRing.mk
        { emptyData 0 (skeyN 0 "m") with
          activeCipherKeyMap := [skeyN 3 "a"]
          macKeyMap := [akeyN 4 "k"]
          keyExchangeParamsMap := [paramsN 6 "p"]
          cipherMap := [(3, CipherV.mk (skeyN 3 "a"))] }
        [emptyRing 1 (skeyN 2 "s")]) := by
  have h := ring_serialize_roundtrip 1
    (KeyRing.mk
      { emptyData 0 (skeyN 0 "m") with
        activeCipherKeyMap := [skeyN 3 "a"]
        macKeyMap := [akeyN 4 "k"]
        keyExchangeParamsMap := [paramsN 6 "p"]
        cipherMap := [(3, CipherV.mk (skeyN 3 "a"))] }
      [emptyRing 1 (skeyN 2 "s")]) (by decide) []
  exact ⟨h.1, h.2 1 _ (by decide)⟩
